import Mathlib

/-!
A shallow embedding of the class `interval_map` of `src/main.cc`.

The class `interval_map<K, V>` keeps a value `m_valBegin` and a `std::map<K, V>`.
The ordered map is embedded as the list of its entries in iteration order, an
iterator as a position in that list (`0` is `begin()`, the length is `end()`).
`K` is any linearly ordered type, `V` any type with decidable equality.

Lines 79 and 90 keep the looked-up value in a `char` whatever `V` is; the effect of
that conversion on a value is a parameter (`conv`) of `assign`.

An exception thrown by `assign` is embedded as an outcome returned next to the
store the call leaves behind.  Line 64 of the source reads `->second` through an
iterator that may be `end()`; what such a read yields is not fixed by the source,
so it is a parameter (`pastEnd`) of `assign`.
-/

namespace IntervalMap

/-- The class `interval_map<K,V>`: the members `m_valBegin` and `m_map`. -/
structure interval_map (K V : Type) where
  m_valBegin : V
  m_map : List (K × V)
deriving DecidableEq, Repr

/-- How a call of `assign` ends: it returns, or it throws one of the two
`std::runtime_error`s (line 36: "first entry in map must not contain same value
as m_valBegin"; lines 56 and 69: "consecutive map entries must not contain the
same value"). -/
inductive Outcome where
  | ok
  | redundantBase
  | consecutiveEntries
deriving DecidableEq, Repr

/-- The conversion of lines 79 and 90.  There the value `operator[]` returns, of type
`V`, is stored in a variable declared `char endVal`; that char is compared with `val`
(lines 80, 91) and put into the pair that is inserted into the `std::map<K,V>` (lines
84, 95, 111).  `narrow x` is the value of type `V` that the char obtained from `x`
stands for: `x` itself when `V` is `char`, and `x` reduced to the range of `char` when
`V` is a wider integer type.  A char converted to `V` and back is the same char, so
narrowing twice is narrowing once. -/
structure CharConversion (V : Type) where
  narrow : V → V
  narrow_narrow : ∀ x, narrow (narrow x) = narrow x

/-- The conversion for `V = char` (the instantiation `interval_map<int, char>` of the
test driver): `char endVal = ...` converts nothing. -/
def noConversion : CharConversion Char :=
  { narrow := fun x => x, narrow_narrow := fun _ => rfl }

/-- The conversion for `V = int` with an 8-bit signed `char`: the value is reduced
modulo 256 into the range from -128 to 127.  (The values used with it below, 300 and
263, become 44 and 7, as they also do when `char` is unsigned.) -/
def intThroughChar : CharConversion Int :=
  { narrow := fun x => (x + 128) % 256 - 128,
    narrow_narrow := fun x => by
      show ((x + 128) % 256 - 128 + 128) % 256 - 128 = (x + 128) % 256 - 128
      omega }

section Defs

variable {K V : Type} [LinearOrder K] [DecidableEq V]

/-- The constructor of line 16: `m_valBegin(val)`, `m_map` default-constructed. -/
def construct (val : V) : interval_map K V :=
  { m_valBegin := val, m_map := [] }

/-- The call `std::map::lower_bound(key)`: the position of the first entry whose key
is not less than `key`; the length of the list (`end()`) when there is none. -/
def lower_bound : List (K × V) → K → Nat
  | [], _ => 0
  | p :: ps, key => if p.1 < key then lower_bound ps key + 1 else 0

/-- The call `std::map::upper_bound(key)`: the position of the first entry whose key
is greater than `key`; the length of the list (`end()`) when there is none. -/
def upper_bound : List (K × V) → K → Nat
  | [], _ => 0
  | p :: ps, key => if key < p.1 then 0 else upper_bound ps key + 1

/-- The call `std::map::erase(first, last)`: removes the entries at the positions
`first ≤ i < last`. -/
def map_erase (m : List (K × V)) (first last : Nat) : List (K × V) :=
  m.take first ++ m.drop last

/-- The call `std::map::insert(pair)`: puts the pair at its place in key order; when
an entry with an equivalent key is present the map is left as it is. -/
def map_insert (p : K × V) : List (K × V) → List (K × V)
  | [] => [p]
  | q :: qs =>
    if p.1 < q.1 then p :: q :: qs
    else if q.1 < p.1 then q :: map_insert p qs
    else q :: qs

/-- The read `it->second`: the value of the entry at position `it`; `pastEnd` when
`it` is not the position of an entry. -/
def second (pastEnd : V) (m : List (K × V)) (it : Nat) : V :=
  match m[it]? with
  | some p => p.2
  | none => pastEnd

/-- The test `it == cMapEnd || key < it->first` of lines 76 and 87. -/
def atEndOrKeyLt (m : List (K × V)) (it : Nat) (key : K) : Bool :=
  match m[it]? with
  | none => true
  | some p => decide (key < p.1)

/-- The body of `operator[]` (lines 121-129) with the dereference made fallible:
`none` stands for reading through an iterator that is not at an entry. -/
def lookupOpt (s : interval_map K V) (key : K) : Option V :=
  let it := upper_bound s.m_map key
  if it = 0 then some s.m_valBegin
  else (s.m_map[it - 1]?).map Prod.snd

/-- The function `operator[]` as `assign` calls it (lines 79, 90): the value of
`lookupOpt` (which is never `none`, see `lookupOpt_eq_some_lookup`). -/
def lookup (s : interval_map K V) (key : K) : V :=
  (lookupOpt s key).getD s.m_valBegin

/-- Lines 73-97: the optional pair `additionalElement`.  The variable `endVal` is a
`char` in the source: it holds `conv.narrow` of the looked-up value. -/
def additionalElement (conv : CharConversion V) (s : interval_map K V)
    (keyBegin keyEnd : K) (val : V) : Option (K × V) :=
  let beginLowerBound := lower_bound s.m_map keyBegin
  let endLowerBound := lower_bound s.m_map keyEnd
  if atEndOrKeyLt s.m_map endLowerBound keyEnd then
    let endVal := conv.narrow (lookup s keyEnd)
    if ¬ endVal = val then some (keyEnd, endVal) else none
  else if atEndOrKeyLt s.m_map beginLowerBound keyBegin then
    let endVal := conv.narrow (lookup s keyBegin)
    if ¬ endVal = val then some (keyEnd, endVal) else none
  else none

/-- Lines 99-112: the erase of `[beginLowerBound, endLowerBound)` (skipped when
`beginLowerBound` is `end()`), the insert of `(keyBegin, val)` and the insert of
`additionalElement` when it holds a pair. -/
def mutate (conv : CharConversion V) (s : interval_map K V) (keyBegin keyEnd : K)
    (val : V) : interval_map K V :=
  let cMapEnd := s.m_map.length
  let beginLowerBound := lower_bound s.m_map keyBegin
  let endLowerBound := lower_bound s.m_map keyEnd
  let m1 := if beginLowerBound ≠ cMapEnd then map_erase s.m_map beginLowerBound endLowerBound
            else s.m_map
  let m2 := map_insert (keyBegin, val) m1
  let m3 := match additionalElement conv s keyBegin keyEnd val with
            | some p => map_insert p m2
            | none => m2
  { s with m_map := m3 }

/-- The test of lines 47-58: `beginLowerBound` is neither `end()` nor `begin()` and the
entry just before it carries `val`. -/
def duplicateBefore (pastEnd : V) (s : interval_map K V) (keyBegin : K) (val : V) : Bool :=
  let cMapEnd := s.m_map.length
  let beginLowerBound := lower_bound s.m_map keyBegin
  decide (beginLowerBound ≠ cMapEnd) && decide (beginLowerBound ≠ 0) &&
    decide (second pastEnd s.m_map (beginLowerBound - 1) = val)

/-- The test of lines 60-71: `endLowerBound` is not `end()` and the value read one
position after it equals `val`. -/
def duplicateAfter (pastEnd : V) (s : interval_map K V) (keyEnd : K) (val : V) : Bool :=
  let cMapEnd := s.m_map.length
  let endLowerBound := lower_bound s.m_map keyEnd
  decide (endLowerBound ≠ cMapEnd) &&
    decide (second pastEnd s.m_map (endLowerBound + 1) = val)

/-- The member function `assign` (lines 24-116).  The result is the outcome of the call
together with the store after it. -/
def assign (conv : CharConversion V) (pastEnd : V) (s : interval_map K V)
    (keyBegin keyEnd : K) (val : V) : Outcome × interval_map K V :=
  if ¬ keyBegin < keyEnd then (Outcome.ok, s)
  else if s.m_map.isEmpty ∧ val = s.m_valBegin then (Outcome.redundantBase, s)
  else if duplicateBefore pastEnd s keyBegin val then (Outcome.consecutiveEntries, s)
  else if duplicateAfter pastEnd s keyEnd val then (Outcome.consecutiveEntries, s)
  else (Outcome.ok, mutate conv s keyBegin keyEnd val)

end Defs

section ProofDefs

variable {K V : Type} [LinearOrder K]

/-- The value a walk over the entries in key order ends with at `key`: the walk starts
with `base` and takes the value of every entry it passes, until an entry whose key is
greater than `key`.  Used to reason about `lookup`, see `lookup_eq_valueAt`. -/
def valueAt (base : V) : List (K × V) → K → V
  | [], _ => base
  | p :: ps, key => if key < p.1 then base else valueAt p.2 ps key

/-- The keys of the entries are strictly increasing: the order `std::map` keeps. -/
def strictlyIncreasing (m : List (K × V)) : Prop :=
  List.Pairwise (fun a b => a < b) (m.map Prod.fst)

instance (m : List (K × V)) : Decidable (strictlyIncreasing m) :=
  inferInstanceAs (Decidable (List.Pairwise (fun a b => a < b) (m.map Prod.fst)))

/-- No entry of the list carries the value of the entry before it, the first one not the
value `prev`. -/
def differsFromPrevious [DecidableEq V] (prev : V) : List (K × V) → Bool
  | [] => true
  | p :: ps => decide (prev ≠ p.2) && differsFromPrevious p.2 ps

/-- Invariant I1 of the spec (canonical form): no two consecutive entries carry equal
values and the value of the first entry differs from `m_valBegin`. -/
def canonical [DecidableEq V] (s : interval_map K V) : Prop :=
  differsFromPrevious s.m_valBegin s.m_map = true

instance [DecidableEq V] (s : interval_map K V) : Decidable (canonical s) :=
  inferInstanceAs (Decidable (differsFromPrevious s.m_valBegin s.m_map = true))

/-- The entries from `lower_bound(keyEnd)` on, as lines 99-112 leave them: they are not
erased, and `additionalElement` is inserted among them when it holds a pair. -/
def tailEntries [DecidableEq V] (conv : CharConversion V) (s : interval_map K V)
    (keyBegin keyEnd : K) (val : V) : List (K × V) :=
  match additionalElement conv s keyBegin keyEnd val with
  | some p => map_insert p (s.m_map.drop (lower_bound s.m_map keyEnd))
  | none => s.m_map.drop (lower_bound s.m_map keyEnd)

end ProofDefs

section Scenarios

/-- The store of Scenarios 1, 2 and 5 of the spec before any call: `construct('x')`, with
the key and value types of the test driver (`interval_map<int, char>`). -/
def freshStore : interval_map Int Char := construct 'x'

/-- The store after Scenario 2: `construct('x')`, then `assign(1, 5, 'A')`.  (No read
past the last entry happens in this call, whatever is passed for it.) -/
def scenario2 : interval_map Int Char := (assign noConversion '?' freshStore 1 5 'A').2

end Scenarios

section VariantDefs

variable {K V : Type} [LinearOrder K] [DecidableEq V]

/-- Lines 99-112 with the optional pair passed in: the erase of
`[beginLowerBound, endLowerBound)` (skipped when `beginLowerBound` is `end()`), the insert
of `(keyBegin, val)` and the insert of `additional` when it holds a pair.  The function
`mutate` is this one at `additionalElement`, see `mutate_eq_mutateWith`. -/
def mutateWith (additional : Option (K × V)) (s : interval_map K V) (keyBegin keyEnd : K)
    (val : V) : interval_map K V :=
  let cMapEnd := s.m_map.length
  let beginLowerBound := lower_bound s.m_map keyBegin
  let endLowerBound := lower_bound s.m_map keyEnd
  let m1 := if beginLowerBound ≠ cMapEnd then map_erase s.m_map beginLowerBound endLowerBound
            else s.m_map
  let m2 := map_insert (keyBegin, val) m1
  let m3 := match additional with
            | some p => map_insert p m2
            | none => m2
  { s with m_map := m3 }

/-- Lines 109-112 on their own: the insert of the optional pair when it holds one. -/
def insertOptional (additional : Option (K × V)) (m : List (K × V)) : List (K × V) :=
  match additional with
  | some p => map_insert p m
  | none => m

/-- Lines 73-97 with the `else if` branch of lines 87-97 deleted. -/
def additionalElementFirstBranch (conv : CharConversion V) (s : interval_map K V)
    (keyEnd : K) (val : V) : Option (K × V) :=
  let endLowerBound := lower_bound s.m_map keyEnd
  if atEndOrKeyLt s.m_map endLowerBound keyEnd then
    let endVal := conv.narrow (lookup s keyEnd)
    if ¬ endVal = val then some (keyEnd, endVal) else none
  else none

/-- The function `assign` with the `else if` branch of lines 87-97 deleted: every other
line as in `assign`. -/
def assignFirstBranch (conv : CharConversion V) (pastEnd : V) (s : interval_map K V)
    (keyBegin keyEnd : K) (val : V) : Outcome × interval_map K V :=
  if ¬ keyBegin < keyEnd then (Outcome.ok, s)
  else if s.m_map.isEmpty ∧ val = s.m_valBegin then (Outcome.redundantBase, s)
  else if duplicateBefore pastEnd s keyBegin val then (Outcome.consecutiveEntries, s)
  else if duplicateAfter pastEnd s keyEnd val then (Outcome.consecutiveEntries, s)
  else (Outcome.ok,
    mutateWith (additionalElementFirstBranch conv s keyEnd val) s keyBegin keyEnd val)

/-- The call reaches line 64 (the range is not empty, lines 36 and 56 do not throw,
`endLowerBound` is a stored entry) and `afterEndLowerBound`, whose `->second` is read
there, is `end()`. -/
def readsPastEnd (pastEnd : V) (s : interval_map K V) (keyBegin keyEnd : K) (val : V) :
    Bool :=
  decide (keyBegin < keyEnd) && !(s.m_map.isEmpty && decide (val = s.m_valBegin)) &&
    !(duplicateBefore pastEnd s keyBegin val) &&
    decide (lower_bound s.m_map keyEnd ≠ s.m_map.length) &&
    decide (lower_bound s.m_map keyEnd + 1 = s.m_map.length)

end VariantDefs

section SpecDefs

variable {K V : Type} [LinearOrder K]

/-- The stored entry immediately preceding a range that begins at `key`: among the
entries with a key `< key`, the last one (the one with the greatest key when the keys
are strictly increasing). -/
def entryBefore (m : List (K × V)) (key : K) : Option (K × V) :=
  (m.filter (fun p => decide (p.1 < key))).getLast?

/-- The stored entry immediately following a range that ends at `key`: among the entries
with a key `≥ key`, the first one (the one with the smallest key when the keys are
strictly increasing). -/
def entryFrom (m : List (K × V)) (key : K) : Option (K × V) :=
  (m.filter (fun p => decide (key ≤ p.1))).head?

/-- The value active immediately before `key`: the value of `entryBefore`, or
`m_valBegin` when no stored key is `< key`. -/
def valueBefore (s : interval_map K V) (key : K) : V :=
  match entryBefore s.m_map key with
  | some p => p.2
  | none => s.m_valBegin

/-- The store has a boundary at `key`: an entry of `m_map` has this key. -/
def hasBoundaryAt (s : interval_map K V) (key : K) : Prop :=
  ∃ p ∈ s.m_map, p.1 = key

instance (s : interval_map K V) (key : K) : Decidable (hasBoundaryAt s key) :=
  inferInstanceAs (Decidable (∃ p ∈ s.m_map, p.1 = key))

end SpecDefs

section MoreScenarios

/-- The store after `construct('x')`, then `assign(5, 7, 'A')`.  (No read past the last
entry happens in this call.) -/
def scenarioFollowing : interval_map Int Char := (assign noConversion '?' freshStore 5 7 'A').2

/-- The store after Scenario 2, then `assign(9, 12, 'A')`: the entries `(1, 'A')`,
`(5, 'x')`, `(9, 'A')`, `(12, 'x')`.  (No read past the last entry happens in this
call.) -/
def scenarioTwoRanges : interval_map Int Char := (assign noConversion '?' scenario2 9 12 'A').2

/-- The store `interval_map<int, int> M(300)`. -/
def intStore300 : interval_map Int Int := construct 300

/-- The store `interval_map<int, int> M(263)`. -/
def intStore263 : interval_map Int Int := construct 263

end MoreScenarios

section Lemmas
variable {K V : Type} [LinearOrder K]

theorem upper_bound_le_length (m : List (K × V)) (key : K) :
    upper_bound m key ≤ m.length := by
  induction m with
  | nil => simp [upper_bound]
  | cons p ps ih =>
    simp only [upper_bound]
    split
    · exact Nat.zero_le _
    · simpa using ih

theorem lower_bound_le_length (m : List (K × V)) (key : K) :
    lower_bound m key ≤ m.length := by
  induction m with
  | nil => simp [lower_bound]
  | cons p ps ih =>
    simp only [lower_bound]
    split
    · simpa using ih
    · exact Nat.zero_le _

theorem lookupOpt_eq_some_valueAt (s : interval_map K V) (key : K) :
    lookupOpt s key = some (valueAt s.m_valBegin s.m_map key) := by
  obtain ⟨base, m⟩ := s
  simp only [lookupOpt]
  induction m generalizing base with
  | nil => simp [upper_bound, valueAt]
  | cons p ps ih =>
    simp only [upper_bound, valueAt]
    by_cases h : key < p.1
    · simp [h]
    · simp only [h, if_false, Nat.add_sub_cancel, Nat.add_one_ne_zero]
      have := ih p.2
      by_cases h0 : upper_bound ps key = 0
      · simp only [h0, if_true] at this
        simp [h0, ← Option.some.inj this]
      · simp only [h0, if_false] at this
        obtain ⟨n, hn⟩ := Nat.exists_eq_succ_of_ne_zero h0
        rw [hn] at this ⊢
        simpa using this

theorem lookup_eq_valueAt (s : interval_map K V) (key : K) :
    lookup s key = valueAt s.m_valBegin s.m_map key := by
  simp [lookup, lookupOpt_eq_some_valueAt]

theorem lookupOpt_eq_some_lookup (s : interval_map K V) (key : K) :
    lookupOpt s key = some (lookup s key) := by
  rw [lookup_eq_valueAt, lookupOpt_eq_some_valueAt]


theorem lower_bound_take_lt (m : List (K × V)) (key : K) :
    ∀ p ∈ m.take (lower_bound m key), p.1 < key := by
  induction m with
  | nil => simp [lower_bound]
  | cons q qs ih =>
    intro p hp
    by_cases h : q.1 < key
    · simp only [lower_bound, h, if_true, List.take_succ_cons, List.mem_cons] at hp
      rcases hp with rfl | hp
      · exact h
      · exact ih p hp
    · simp [lower_bound, h] at hp

theorem lower_bound_drop_head (m : List (K × V)) (key : K) :
    ∀ p ∈ (m.drop (lower_bound m key)).head?, key ≤ p.1 := by
  induction m with
  | nil => simp [lower_bound]
  | cons q qs ih =>
    intro p hp
    by_cases h : q.1 < key
    · simp only [lower_bound, h, if_true, List.drop_succ_cons] at hp
      exact ih p hp
    · simp only [lower_bound, h, if_false, List.drop_zero, List.head?_cons,
        Option.mem_def, Option.some.injEq] at hp
      subst hp
      exact not_lt.mp h

theorem lower_bound_mono (m : List (K × V)) {a b : K} (h : a ≤ b) :
    lower_bound m a ≤ lower_bound m b := by
  induction m with
  | nil => simp [lower_bound]
  | cons q qs ih =>
    by_cases ha : q.1 < a
    · have hb : q.1 < b := lt_of_lt_of_le ha h
      simpa [lower_bound, ha, hb] using ih
    · simp [lower_bound, ha]

theorem map_insert_append (x : K × V) (L R : List (K × V))
    (h : ∀ p ∈ L, p.1 < x.1) : map_insert x (L ++ R) = L ++ map_insert x R := by
  induction L with
  | nil => rfl
  | cons q qs ih =>
    have hq : q.1 < x.1 := h q (List.mem_cons_self _ _)
    have hn : ¬ x.1 < q.1 := not_lt.mpr (le_of_lt hq)
    have ih2 := ih (fun p hp => h p (List.mem_cons_of_mem _ hp))
    simp only [List.cons_append, map_insert, hn, if_false, hq, if_true, List.cons.injEq,
      true_and]
    exact ih2

theorem map_insert_before (x : K × V) (R : List (K × V))
    (h : ∀ p ∈ R.head?, x.1 < p.1) : map_insert x R = x :: R := by
  cases R with
  | nil => rfl
  | cons q qs =>
    have hq : x.1 < q.1 := h q (by simp)
    simp [map_insert, hq]

theorem valueAt_of_head_gt (base : V) (R : List (K × V)) (k : K)
    (h : ∀ p ∈ R.head?, k < p.1) : valueAt base R k = base := by
  cases R with
  | nil => rfl
  | cons q qs =>
    have hq : k < q.1 := h q (by simp)
    simp [valueAt, hq]

theorem valueAt_append_of_head_gt (base : V) (L X : List (K × V)) (k : K)
    (h : ∀ p ∈ X.head?, k < p.1) : valueAt base (L ++ X) k = valueAt base L k := by
  induction L generalizing base with
  | nil => simpa [valueAt] using valueAt_of_head_gt base X k h
  | cons q qs ih =>
    simp only [List.cons_append, valueAt]
    split
    · rfl
    · exact ih q.2

theorem valueAt_append_of_le (base : V) (L R : List (K × V)) (k : K)
    (h : ∀ p ∈ L, p.1 ≤ k) :
    valueAt base (L ++ R) k = valueAt (valueAt base L k) R k := by
  induction L generalizing base with
  | nil => rfl
  | cons q qs ih =>
    have hq : ¬ k < q.1 := not_lt.mpr (h q (List.mem_cons_self _ _))
    simp only [List.cons_append, valueAt, hq, if_false]
    exact ih q.2 (fun p hp => h p (List.mem_cons_of_mem _ hp))

theorem valueAt_congr_of_le (base : V) (L : List (K × V)) (k k' : K)
    (h : ∀ p ∈ L, p.1 ≤ k) (h' : ∀ p ∈ L, p.1 ≤ k') :
    valueAt base L k = valueAt base L k' := by
  induction L generalizing base with
  | nil => rfl
  | cons q qs ih =>
    have hq : ¬ k < q.1 := not_lt.mpr (h q (List.mem_cons_self _ _))
    have hq' : ¬ k' < q.1 := not_lt.mpr (h' q (List.mem_cons_self _ _))
    simp only [valueAt, hq, hq', if_false]
    exact ih q.2 (fun p hp => h p (List.mem_cons_of_mem _ hp))
      (fun p hp => h' p (List.mem_cons_of_mem _ hp))


theorem atEndOrKeyLt_iff (m : List (K × V)) (it : Nat) (key : K) :
    atEndOrKeyLt m it key = true ↔ ∀ p ∈ (m.drop it).head?, key < p.1 := by
  unfold atEndOrKeyLt
  rw [List.head?_drop]
  cases h : m[it]? with
  | none => simp
  | some p => simp

end Lemmas

section AssignLemmas
variable {K V : Type} [LinearOrder K] [DecidableEq V] (conv : CharConversion V)

theorem additionalElement_key (s : interval_map K V) (b e : K) (v : V) :
    ∀ p ∈ additionalElement conv s b e v, p.1 = e := by
  intro p hp
  unfold additionalElement at hp
  simp only [Option.mem_def] at hp
  split at hp
  · split at hp
    · cases hp; rfl
    · cases hp
  · split at hp
    · split at hp
      · cases hp; rfl
      · cases hp
    · cases hp

/-- The entries after a successful `assign`: those before `lower_bound(keyBegin)`, then
`(keyBegin, val)`, then those from `lower_bound(keyEnd)` on with `additionalElement`
inserted among them. -/
theorem mutate_m_map (s : interval_map K V) (b e : K) (v : V) (hbe : b < e) :
    (mutate conv s b e v).m_map =
      s.m_map.take (lower_bound s.m_map b) ++ (b, v) ::
        tailEntries conv s b e v := by
  have hmono := lower_bound_mono s.m_map (le_of_lt hbe)
  have hL := lower_bound_take_lt s.m_map b
  have hR := lower_bound_drop_head s.m_map e
  have hm1 : (if lower_bound s.m_map b ≠ s.m_map.length
        then map_erase s.m_map (lower_bound s.m_map b) (lower_bound s.m_map e)
        else s.m_map) =
      s.m_map.take (lower_bound s.m_map b) ++ s.m_map.drop (lower_bound s.m_map e) := by
    split
    · rfl
    · rename_i h
      have h1 : lower_bound s.m_map b = s.m_map.length := not_not.mp h
      have h2 : s.m_map.length ≤ lower_bound s.m_map e := h1 ▸ hmono
      rw [h1, List.take_length, List.drop_eq_nil_of_le h2, List.append_nil]
  have hm2 : map_insert (b, v)
        (s.m_map.take (lower_bound s.m_map b) ++ s.m_map.drop (lower_bound s.m_map e)) =
      s.m_map.take (lower_bound s.m_map b) ++ (b, v) ::
        s.m_map.drop (lower_bound s.m_map e) := by
    rw [map_insert_append _ _ _ hL, map_insert_before]
    intro p hp
    exact lt_of_lt_of_le hbe (hR p hp)
  unfold mutate tailEntries
  simp only [hm1, hm2]
  cases hadd : additionalElement conv s b e v with
  | none => rfl
  | some p =>
    have hk : p.1 = e := additionalElement_key conv s b e v p hadd
    have hLp : ∀ q ∈ s.m_map.take (lower_bound s.m_map b), q.1 < p.1 := by
      intro q hq
      rw [hk]
      exact lt_trans (hL q hq) hbe
    have hbp : b < p.1 := hk ▸ hbe
    have hnp : ¬ p.1 < b := not_lt.mpr (le_of_lt hbp)
    simp only [map_insert_append _ _ _ hLp, map_insert, hnp, if_false, hbp, if_true]


/-- The entries from `lower_bound(keyEnd)` on, with `additionalElement` inserted: below
`keyEnd` a walk that enters them with `val` keeps `val`; from `keyEnd` on it ends with
what the store held before, when the conversion to `char` leaves the value active at
`keyEnd` as it is. -/
theorem valueAt_tail (s : interval_map K V) (b e : K) (v : V) (k : K) :
    (k < e → valueAt v (tailEntries conv s b e v) k = v) ∧
    (e ≤ k → conv.narrow (lookup s e) = lookup s e →
      valueAt v (tailEntries conv s b e v) k = valueAt s.m_valBegin s.m_map k) := by
  have hP := lower_bound_take_lt s.m_map e
  have hR := lower_bound_drop_head s.m_map e
  have hsplit : s.m_map =
      s.m_map.take (lower_bound s.m_map e) ++ s.m_map.drop (lower_bound s.m_map e) :=
    (List.take_append_drop _ _).symm
  -- the value before the call at a key from `keyEnd` on
  have hold : ∀ k', e ≤ k' → valueAt s.m_valBegin s.m_map k' =
      valueAt (valueAt s.m_valBegin (s.m_map.take (lower_bound s.m_map e)) e)
        (s.m_map.drop (lower_bound s.m_map e)) k' := by
    intro k' hk'
    have h1 : ∀ p ∈ s.m_map.take (lower_bound s.m_map e), p.1 ≤ k' :=
      fun p hp => le_trans (le_of_lt (hP p hp)) hk'
    have h2 : ∀ p ∈ s.m_map.take (lower_bound s.m_map e), p.1 ≤ e :=
      fun p hp => le_of_lt (hP p hp)
    conv_lhs => rw [hsplit]
    rw [valueAt_append_of_le _ _ _ _ h1, valueAt_congr_of_le _ _ k' e h1 h2]
  by_cases hA : atEndOrKeyLt s.m_map (lower_bound s.m_map e) e = true
  · -- no entry sits at `keyEnd`
    have hgt := (atEndOrKeyLt_iff _ _ _).mp hA
    have hend : lookup s e =
        valueAt s.m_valBegin (s.m_map.take (lower_bound s.m_map e)) e := by
      rw [lookup_eq_valueAt, hold e le_rfl, valueAt_of_head_gt _ _ _ hgt]
    by_cases hv : conv.narrow (lookup s e) = v
    · have hadd : additionalElement conv s b e v = none := by
        simp [additionalElement, hA, hv]
      unfold tailEntries
      rw [hadd]
      refine ⟨fun hk => ?_, fun hk hconv => ?_⟩
      · exact valueAt_of_head_gt _ _ _ (fun p hp => lt_trans hk (hgt p hp))
      · rw [hold k hk, ← hend, ← hconv, hv]
    · have hadd : additionalElement conv s b e v = some (e, conv.narrow (lookup s e)) := by
        simp [additionalElement, hA, hv]
      unfold tailEntries
      rw [hadd]
      simp only
      rw [map_insert_before _ _ hgt]
      refine ⟨fun hk => ?_, fun hk hconv => ?_⟩
      · simp [valueAt, hk]
      · have hk' : ¬ k < e := not_lt.mpr hk
        simp only [valueAt, hk', if_false]
        rw [hold k hk, ← hend, hconv]
  · -- an entry sits exactly at `keyEnd`
    have hne : ¬ ∀ p ∈ (s.m_map.drop (lower_bound s.m_map e)).head?, e < p.1 :=
      fun h => hA ((atEndOrKeyLt_iff _ _ _).mpr h)
    unfold tailEntries
    cases hR' : s.m_map.drop (lower_bound s.m_map e) with
    | nil => exact absurd (by simp [hR']) hne
    | cons q qs =>
      have hq1 : e ≤ q.1 := hR q (by simp [hR'])
      have hq2 : ¬ e < q.1 := by
        intro h
        apply hne
        intro p hp
        simp only [hR', List.head?_cons, Option.mem_def, Option.some.injEq] at hp
        exact hp ▸ h
      have hq3 : ¬ q.1 < e := not_lt.mpr hq1
      have hT : (match additionalElement conv s b e v with
         | some p => map_insert p (q :: qs)
         | none => q :: qs) = q :: qs := by
        cases hadd : additionalElement conv s b e v with
        | none => rfl
        | some p =>
          have hk : p.1 = e := additionalElement_key conv s b e v p hadd
          simp [map_insert, hk, hq2, hq3]
      rw [hT]
      refine ⟨fun hk => ?_, fun hk _ => ?_⟩
      · have : k < q.1 := lt_of_lt_of_le hk hq1
        simp [valueAt, this]
      · have hkq : ¬ k < q.1 := fun h => hq2 (lt_of_le_of_lt hk h)
        rw [hold k hk, hR']
        simp [valueAt, hkq]

/-- The value `lookup` finds after the entries were rewritten by a successful `assign`;
for a key from `keyEnd` on, provided the conversion to `char` leaves the value active at
`keyEnd` as it is. -/
theorem lookup_mutate (s : interval_map K V) (b e : K) (v : V) (hbe : b < e) (k : K)
    (hconv : e ≤ k → conv.narrow (lookup s e) = lookup s e) :
    lookup (mutate conv s b e v) k = if b ≤ k ∧ k < e then v else lookup s k := by
  have hbase : (mutate conv s b e v).m_valBegin = s.m_valBegin := rfl
  have hL := lower_bound_take_lt s.m_map b
  have hD := lower_bound_drop_head s.m_map b
  rw [lookup_eq_valueAt, lookup_eq_valueAt, hbase, mutate_m_map conv s b e v hbe]
  by_cases hkb : k < b
  · have hnk : ¬ (b ≤ k ∧ k < e) := fun h => absurd hkb (not_lt.mpr h.1)
    rw [if_neg hnk, valueAt_append_of_head_gt]
    · conv_rhs => rw [← List.take_append_drop (lower_bound s.m_map b) s.m_map]
      rw [valueAt_append_of_head_gt]
      intro p hp
      exact lt_of_lt_of_le hkb (hD p hp)
    · intro p hp
      simp only [List.head?_cons, Option.mem_def, Option.some.injEq] at hp
      exact hp ▸ hkb
  · have hbk : b ≤ k := not_lt.mp hkb
    have hLk : ∀ p ∈ s.m_map.take (lower_bound s.m_map b), p.1 ≤ k :=
      fun p hp => le_trans (le_of_lt (hL p hp)) hbk
    rw [valueAt_append_of_le _ _ _ _ hLk]
    simp only [valueAt, hkb, if_false]
    obtain ⟨h1, h2⟩ := valueAt_tail conv s b e v k
    by_cases hke : k < e
    · rw [if_pos ⟨hbk, hke⟩]
      exact h1 hke
    · have hnk : ¬ (b ≤ k ∧ k < e) := fun h => hke h.2
      rw [if_neg hnk]
      exact h2 (not_lt.mp hke) (hconv (not_lt.mp hke))


theorem assign_of_not_lt (conv : CharConversion V) (pastEnd : V)
    (s : interval_map K V) (b e : K) (v : V)
    (h : ¬ b < e) : assign conv pastEnd s b e v = (Outcome.ok, s) := by
  simp [assign, h]

/-- The four ways a call with a non-empty range ends, by the guards of lines 32-71. -/
theorem assign_cases (conv : CharConversion V) (pastEnd : V)
    (s : interval_map K V) (b e : K) (v : V) (hbe : b < e) :
    (assign conv pastEnd s b e v = (Outcome.redundantBase, s) ∧ s.m_map = [] ∧ v = s.m_valBegin) ∨
    (assign conv pastEnd s b e v = (Outcome.consecutiveEntries, s) ∧
      ¬ (s.m_map = [] ∧ v = s.m_valBegin) ∧ duplicateBefore pastEnd s b v = true) ∨
    (assign conv pastEnd s b e v = (Outcome.consecutiveEntries, s) ∧
      ¬ (s.m_map = [] ∧ v = s.m_valBegin) ∧ duplicateBefore pastEnd s b v = false ∧
      duplicateAfter pastEnd s e v = true) ∨
    (assign conv pastEnd s b e v = (Outcome.ok, mutate conv s b e v) ∧
      ¬ (s.m_map = [] ∧ v = s.m_valBegin) ∧ duplicateBefore pastEnd s b v = false ∧
      duplicateAfter pastEnd s e v = false) := by
  by_cases h2 : s.m_map = [] ∧ v = s.m_valBegin
  · left
    simp [assign, hbe, h2]
  · right
    cases h3 : duplicateBefore pastEnd s b v with
    | true =>
      left
      simp [assign, hbe, h2, h3]
    | false =>
      right
      cases h4 : duplicateAfter pastEnd s e v with
      | true =>
        left
        simp [assign, hbe, h2, h3, h4]
      | false =>
        right
        simp [assign, hbe, h2, h3, h4]

theorem assign_snd_of_ne_ok (conv : CharConversion V) (pastEnd : V)
    (s : interval_map K V) (b e : K) (v : V)
    (h : (assign conv pastEnd s b e v).1 ≠ Outcome.ok) : (assign conv pastEnd s b e v).2 = s := by
  by_cases h1 : b < e
  · rcases assign_cases conv pastEnd s b e v h1 with h2 | h2 | h2 | h2
    · rw [h2.1]
    · rw [h2.1]
    · rw [h2.1]
    · rw [h2.1] at h
      exact absurd rfl h
  · rw [assign_of_not_lt conv pastEnd s b e v h1]

theorem assign_snd_of_ok (conv : CharConversion V) (pastEnd : V)
    (s : interval_map K V) (b e : K) (v : V)
    (hbe : b < e) (h : (assign conv pastEnd s b e v).1 = Outcome.ok) :
    (assign conv pastEnd s b e v).2 = mutate conv s b e v := by
  rcases assign_cases conv pastEnd s b e v hbe with h2 | h2 | h2 | h2
  · rw [h2.1] at h; cases h
  · rw [h2.1] at h; cases h
  · rw [h2.1] at h; cases h
  · rw [h2.1]

end AssignLemmas

section SortedLemmas
variable {K V : Type} [LinearOrder K]

theorem strictlyIncreasing_cons (h : K × V) (t : List (K × V)) :
    strictlyIncreasing (h :: t) ↔ (∀ q ∈ t, h.1 < q.1) ∧ strictlyIncreasing t := by
  simp [strictlyIncreasing, List.pairwise_cons]

theorem valueAt_of_greatest (base : V) (m : List (K × V)) (k : K)
    (hs : strictlyIncreasing m) (p : K × V) (hp : p ∈ m) (hpk : p.1 ≤ k)
    (hmax : ∀ q ∈ m, q.1 ≤ k → q.1 ≤ p.1) : valueAt base m k = p.2 := by
  induction m generalizing base with
  | nil => cases hp
  | cons h t ih =>
    obtain ⟨hht, hst⟩ := (strictlyIncreasing_cons h t).mp hs
    have hhk : ¬ k < h.1 := by
      intro hlt
      rcases List.mem_cons.mp hp with rfl | hpt
      · exact absurd hpk (not_le.mpr hlt)
      · exact absurd (lt_trans hlt (hht p hpt)) (not_lt.mpr hpk)
    simp only [valueAt, hhk, if_false]
    rcases List.mem_cons.mp hp with rfl | hpt
    · apply valueAt_of_head_gt
      intro q hq
      have hqt : q ∈ t := List.mem_of_mem_head? hq
      by_contra hcon
      have := hmax q (List.mem_cons_of_mem _ hqt) (not_lt.mp hcon)
      exact absurd (hht q hqt) (not_lt.mpr this)
    · exact ih h.2 hst hpt (fun q hq => hmax q (List.mem_cons_of_mem _ hq))

end SortedLemmas

section RepeatLemmas
variable {K V : Type} [LinearOrder K]

theorem lower_bound_append (L X : List (K × V)) (k : K) (h : ∀ p ∈ L, p.1 < k) :
    lower_bound (L ++ X) k = L.length + lower_bound X k := by
  induction L with
  | nil => simp
  | cons q qs ih =>
    have hq : q.1 < k := h q (List.mem_cons_self _ _)
    have ih2 := ih (fun p hp => h p (List.mem_cons_of_mem _ hp))
    simp only [List.cons_append, lower_bound, hq, if_true, List.length_cons]
    change lower_bound (qs ++ X) k + 1 = qs.length + 1 + lower_bound X k
    rw [ih2]
    omega

theorem lower_bound_of_head_ge (X : List (K × V)) (k : K)
    (h : ∀ p ∈ X.head?, k ≤ p.1) : lower_bound X k = 0 := by
  cases X with
  | nil => rfl
  | cons q qs =>
    have hq : ¬ q.1 < k := not_lt.mpr (h q (by simp))
    simp [lower_bound, hq]

theorem map_insert_head_ge (x : K × V) (R : List (K × V)) (k : K) (hx : k ≤ x.1)
    (h : ∀ p ∈ R.head?, k ≤ p.1) : ∀ p ∈ (map_insert x R).head?, k ≤ p.1 := by
  cases R with
  | nil =>
    intro p hp
    simp only [map_insert, List.head?_cons, Option.mem_def, Option.some.injEq] at hp
    exact hp ▸ hx
  | cons q qs =>
    have hq : k ≤ q.1 := h q (by simp)
    intro p hp
    simp only [map_insert] at hp
    split at hp
    · simp only [List.head?_cons, Option.mem_def, Option.some.injEq] at hp
      exact hp ▸ hx
    · split at hp <;>
      · simp only [List.head?_cons, Option.mem_def, Option.some.injEq] at hp
        exact hp ▸ hq

end RepeatLemmas

section OrderLemmas
variable {K V : Type} [LinearOrder K]

theorem strictlyIncreasing_of_sublist {m m2 : List (K × V)} (h : List.Sublist m2 m)
    (hs : strictlyIncreasing m) : strictlyIncreasing m2 :=
  List.Pairwise.sublist (List.Sublist.map Prod.fst h) hs

theorem strictlyIncreasing_append (L R : List (K × V)) :
    strictlyIncreasing (L ++ R) ↔
      strictlyIncreasing L ∧ strictlyIncreasing R ∧ ∀ p ∈ L, ∀ q ∈ R, p.1 < q.1 := by
  simp only [strictlyIncreasing, List.map_append, List.pairwise_append, List.mem_map,
    forall_exists_index, and_imp]
  constructor
  · rintro ⟨h1, h2, h3⟩
    exact ⟨h1, h2, fun p hp q hq => h3 p.1 p hp rfl q.1 q hq rfl⟩
  · rintro ⟨h1, h2, h3⟩
    refine ⟨h1, h2, ?_⟩
    rintro a p hp rfl c q hq rfl
    exact h3 p hp q hq

theorem mem_map_insert (x : K × V) (m : List (K × V)) :
    ∀ q ∈ map_insert x m, q = x ∨ q ∈ m := by
  induction m with
  | nil =>
    intro q hq
    simp only [map_insert, List.mem_singleton] at hq
    exact Or.inl hq
  | cons h t ih =>
    intro q hq
    simp only [map_insert] at hq
    split at hq
    · rcases List.mem_cons.mp hq with rfl | hq2
      · exact Or.inl rfl
      · exact Or.inr hq2
    · split at hq
      · rcases List.mem_cons.mp hq with rfl | hq2
        · exact Or.inr (List.mem_cons_self _ _)
        · rcases ih q hq2 with rfl | hq3
          · exact Or.inl rfl
          · exact Or.inr (List.mem_cons_of_mem _ hq3)
      · exact Or.inr hq

theorem strictlyIncreasing_map_insert (x : K × V) (m : List (K × V))
    (hs : strictlyIncreasing m) : strictlyIncreasing (map_insert x m) := by
  induction m with
  | nil => simp [map_insert, strictlyIncreasing]
  | cons h t ih =>
    obtain ⟨hht, hst⟩ := (strictlyIncreasing_cons h t).mp hs
    simp only [map_insert]
    split
    · rename_i hxh
      rw [strictlyIncreasing_cons]
      refine ⟨?_, hs⟩
      intro q hq
      rcases List.mem_cons.mp hq with rfl | hq2
      · exact hxh
      · exact lt_trans hxh (hht q hq2)
    · split
      · rename_i hhx
        rw [strictlyIncreasing_cons]
        refine ⟨?_, ih hst⟩
        intro q hq
        rcases mem_map_insert x t q hq with rfl | hq2
        · exact hhx
        · exact hht q hq2
      · exact hs

theorem lower_bound_drop_ge (m : List (K × V)) (key : K) (hs : strictlyIncreasing m) :
    ∀ p ∈ m.drop (lower_bound m key), key ≤ p.1 := by
  induction m with
  | nil => simp [lower_bound]
  | cons h t ih =>
    obtain ⟨hht, hst⟩ := (strictlyIncreasing_cons h t).mp hs
    intro p hp
    by_cases hk : h.1 < key
    · simp only [lower_bound, hk, if_true, List.drop_succ_cons] at hp
      exact ih hst p hp
    · simp only [lower_bound, hk, if_false, List.drop_zero] at hp
      rcases List.mem_cons.mp hp with rfl | hp2
      · exact not_lt.mp hk
      · exact le_trans (not_lt.mp hk) (le_of_lt (hht p hp2))

end OrderLemmas

section ExtLemma

theorem interval_map_ext {K V : Type} (s t : interval_map K V) (h1 : s.m_valBegin = t.m_valBegin)
    (h2 : s.m_map = t.m_map) : s = t := by
  cases s
  cases t
  simp only at h1 h2
  rw [h1, h2]

end ExtLemma

section VariantLemmas
variable {K V : Type} [LinearOrder K] [DecidableEq V] (conv : CharConversion V)

theorem mutate_eq_mutateWith (s : interval_map K V) (b e : K) (v : V) :
    mutate conv s b e v = mutateWith (additionalElement conv s b e v) s b e v := rfl

theorem additionalElementFirstBranch_key (s : interval_map K V) (e : K) (v : V) :
    ∀ p ∈ additionalElementFirstBranch conv s e v, p.1 = e := by
  intro p hp
  unfold additionalElementFirstBranch at hp
  simp only [Option.mem_def] at hp
  split at hp
  · split at hp
    · cases hp; rfl
    · cases hp
  · cases hp

end VariantLemmas

section VariantShape
variable {K V : Type} [LinearOrder K]

/-- The entries `mutateWith` leaves, for an optional pair whose key is `keyEnd`. -/
theorem mutateWith_m_map (add : Option (K × V)) (s : interval_map K V) (b e : K) (v : V)
    (hbe : b < e) (hadd : ∀ p ∈ add, p.1 = e) :
    (mutateWith add s b e v).m_map =
      s.m_map.take (lower_bound s.m_map b) ++ (b, v) ::
        insertOptional add (s.m_map.drop (lower_bound s.m_map e)) := by
  have hmono := lower_bound_mono s.m_map (le_of_lt hbe)
  have hL := lower_bound_take_lt s.m_map b
  have hR := lower_bound_drop_head s.m_map e
  have hm1 : (if lower_bound s.m_map b ≠ s.m_map.length
        then map_erase s.m_map (lower_bound s.m_map b) (lower_bound s.m_map e)
        else s.m_map) =
      s.m_map.take (lower_bound s.m_map b) ++ s.m_map.drop (lower_bound s.m_map e) := by
    split
    · rfl
    · rename_i h
      have h1 : lower_bound s.m_map b = s.m_map.length := not_not.mp h
      have h2 : s.m_map.length ≤ lower_bound s.m_map e := h1 ▸ hmono
      rw [h1, List.take_length, List.drop_eq_nil_of_le h2, List.append_nil]
  have hm2 : map_insert (b, v)
        (s.m_map.take (lower_bound s.m_map b) ++ s.m_map.drop (lower_bound s.m_map e)) =
      s.m_map.take (lower_bound s.m_map b) ++ (b, v) ::
        s.m_map.drop (lower_bound s.m_map e) := by
    rw [map_insert_append _ _ _ hL, map_insert_before]
    intro p hp
    exact lt_of_lt_of_le hbe (hR p hp)
  unfold mutateWith insertOptional
  simp only [hm1, hm2]
  cases add with
  | none => rfl
  | some p =>
    have hk : p.1 = e := hadd p rfl
    have hLp : ∀ q ∈ s.m_map.take (lower_bound s.m_map b), q.1 < p.1 := by
      intro q hq
      rw [hk]
      exact lt_trans (hL q hq) hbe
    have hbp : b < p.1 := hk ▸ hbe
    have hnp : ¬ p.1 < b := not_lt.mpr (le_of_lt hbp)
    simp only [map_insert_append _ _ _ hLp, map_insert, hnp, if_false, hbp, if_true]

/-- When the test of line 76 fails, `lower_bound(keyEnd)` is an entry with key `keyEnd`. -/
theorem drop_of_entry_at_end (m : List (K × V)) (e : K)
    (hA : ¬ atEndOrKeyLt m (lower_bound m e) e = true) :
    ∃ q qs, m.drop (lower_bound m e) = q :: qs ∧ q.1 = e := by
  have hR := lower_bound_drop_head m e
  have hne : ¬ ∀ p ∈ (m.drop (lower_bound m e)).head?, e < p.1 :=
    fun h => hA ((atEndOrKeyLt_iff _ _ _).mpr h)
  cases hR2 : m.drop (lower_bound m e) with
  | nil => exact absurd (by simp [hR2]) hne
  | cons q qs =>
    refine ⟨q, qs, rfl, ?_⟩
    have hq1 : e ≤ q.1 := hR q (by simp [hR2])
    have hq2 : ¬ e < q.1 := by
      intro h
      apply hne
      intro p hp
      simp only [hR2, List.head?_cons, Option.mem_def, Option.some.injEq] at hp
      exact hp ▸ h
    exact le_antisymm (not_lt.mp hq2) hq1

theorem map_insert_same_key (p q : K × V) (qs : List (K × V)) (h : p.1 = q.1) :
    map_insert p (q :: qs) = q :: qs := by
  simp [map_insert, h]

end VariantShape

section VariantTail
variable {K V : Type} [LinearOrder K] [DecidableEq V] (conv : CharConversion V)

/-- The insert of line 111 changes nothing when an entry sits at `keyEnd`: the entries
from `lower_bound(keyEnd)` on stay as they are. -/
theorem tailEntries_of_entry_at_end (s : interval_map K V) (b e : K) (v : V)
    (hA : ¬ atEndOrKeyLt s.m_map (lower_bound s.m_map e) e = true) :
    tailEntries conv s b e v = s.m_map.drop (lower_bound s.m_map e) := by
  obtain ⟨q, qs, hq, hqe⟩ := drop_of_entry_at_end s.m_map e hA
  unfold tailEntries
  cases hadd : additionalElement conv s b e v with
  | none => rfl
  | some p =>
    have hk : p.1 = e := additionalElement_key conv s b e v p hadd
    simp only [hq]
    exact map_insert_same_key p q qs (hk.trans hqe.symm)

theorem mutate_eq_mutateWith_firstBranch (s : interval_map K V) (b e : K) (v : V)
    (hbe : b < e) :
    mutate conv s b e v = mutateWith (additionalElementFirstBranch conv s e v) s b e v := by
  apply interval_map_ext
  · rfl
  · rw [mutate_m_map conv s b e v hbe,
      mutateWith_m_map _ s b e v hbe (additionalElementFirstBranch_key conv s e v)]
    by_cases hA : atEndOrKeyLt s.m_map (lower_bound s.m_map e) e = true
    · have h1 : additionalElement conv s b e v = additionalElementFirstBranch conv s e v := by
        simp [additionalElement, additionalElementFirstBranch, hA]
      unfold tailEntries insertOptional
      rw [h1]
    · have h1 : additionalElementFirstBranch conv s e v = none := by
        simp [additionalElementFirstBranch, hA]
      rw [tailEntries_of_entry_at_end conv s b e v hA, h1]
      rfl

end VariantTail

section RefinementClaim
variable {K V : Type} [LinearOrder K] [DecidableEq V]

/-- C20: the second `additionalElement` branch (lines 87-97) never affects the result.
For every store and all arguments, whatever a read past the last entry yields, `assign`
has the same outcome and leaves the same store as the variant of `assign` with that
`else if` branch deleted. -/
theorem assign_eq_assignFirstBranch (conv : CharConversion V) (pastEnd : V)
    (s : interval_map K V)
    (keyBegin keyEnd : K) (val : V) :
    assign conv pastEnd s keyBegin keyEnd val = assignFirstBranch conv pastEnd s keyBegin keyEnd val := by
  by_cases hlt : keyBegin < keyEnd
  · unfold assign assignFirstBranch
    rw [mutate_eq_mutateWith_firstBranch conv s keyBegin keyEnd val hlt]
  · simp [assign, assignFirstBranch, hlt]

end RefinementClaim

section FilterLemmas
variable {K V : Type}

theorem filter_append_of_left_true_right_false (f : K × V → Bool) (L R : List (K × V))
    (hL : ∀ p ∈ L, f p = true) (hR : ∀ p ∈ R, f p = false) :
    (L ++ R).filter f = L := by
  rw [List.filter_append, List.filter_eq_self.mpr hL]
  have : R.filter f = [] := by
    induction R with
    | nil => rfl
    | cons q qs ih =>
      have hq : f q = false := hR q (List.mem_cons_self _ _)
      simp only [List.filter_cons, hq]
      exact ih (fun p hp => hR p (List.mem_cons_of_mem _ hp))
  rw [this, List.append_nil]

theorem filter_append_of_left_false (f : K × V → Bool) (L R : List (K × V))
    (hL : ∀ p ∈ L, f p = false) : (L ++ R).filter f = R.filter f := by
  induction L with
  | nil => rfl
  | cons q qs ih =>
    have hq : f q = false := hL q (List.mem_cons_self _ _)
    simp only [List.cons_append, List.filter_cons, hq]
    exact ih (fun p hp => hL p (List.mem_cons_of_mem _ hp))

end FilterLemmas

section TailLemmas
variable {K V : Type} [LinearOrder K] [DecidableEq V] (conv : CharConversion V)

/-- The entries from `lower_bound(keyEnd)` on are left as they were, or get one entry
with key `keyEnd` put in front. -/
theorem tailEntries_cases (s : interval_map K V) (b e : K) (v : V) :
    tailEntries conv s b e v = s.m_map.drop (lower_bound s.m_map e) ∨
    ∃ x, tailEntries conv s b e v = (e, x) :: s.m_map.drop (lower_bound s.m_map e) := by
  by_cases hA : atEndOrKeyLt s.m_map (lower_bound s.m_map e) e = true
  · have hgt := (atEndOrKeyLt_iff _ _ _).mp hA
    unfold tailEntries
    cases hadd : additionalElement conv s b e v with
    | none => exact Or.inl rfl
    | some p =>
      have hk : p.1 = e := additionalElement_key conv s b e v p hadd
      right
      refine ⟨p.2, ?_⟩
      simp only
      rw [map_insert_before p _ (fun q hq => hk ▸ hgt q hq), ← hk]
  · exact Or.inl (tailEntries_of_entry_at_end conv s b e v hA)

theorem tailEntries_ge (s : interval_map K V) (b e : K) (v : V)
    (hs : strictlyIncreasing s.m_map) : ∀ p ∈ tailEntries conv s b e v, e ≤ p.1 := by
  have hR := lower_bound_drop_ge s.m_map e hs
  intro p hp
  rcases tailEntries_cases conv s b e v with h | ⟨x, h⟩
  · rw [h] at hp
    exact hR p hp
  · rw [h] at hp
    rcases List.mem_cons.mp hp with rfl | hp2
    · exact le_rfl
    · exact hR p hp2

theorem tailEntries_strictlyIncreasing (s : interval_map K V) (b e : K) (v : V)
    (hs : strictlyIncreasing s.m_map) : strictlyIncreasing (tailEntries conv s b e v) := by
  have hR : strictlyIncreasing (s.m_map.drop (lower_bound s.m_map e)) :=
    strictlyIncreasing_of_sublist (List.drop_sublist _ _) hs
  unfold tailEntries
  cases additionalElement conv s b e v with
  | none => exact hR
  | some p => exact strictlyIncreasing_map_insert p _ hR

/-- A successful `assign` keeps the keys strictly increasing. -/
theorem mutate_strictlyIncreasing (s : interval_map K V) (b e : K) (v : V) (hbe : b < e)
    (hs : strictlyIncreasing s.m_map) : strictlyIncreasing (mutate conv s b e v).m_map := by
  have hL := lower_bound_take_lt s.m_map b
  have hT := tailEntries_ge conv s b e v hs
  rw [mutate_m_map conv s b e v hbe, strictlyIncreasing_append]
  refine ⟨strictlyIncreasing_of_sublist (List.take_sublist _ _) hs, ?_, ?_⟩
  · rw [strictlyIncreasing_cons]
    exact ⟨fun q hq => lt_of_lt_of_le hbe (hT q hq),
      tailEntries_strictlyIncreasing conv s b e v hs⟩
  · intro p hp q hq
    rcases List.mem_cons.mp hq with rfl | hq2
    · exact hL p hp
    · exact lt_trans (hL p hp) (lt_of_lt_of_le hbe (hT q hq2))

/-- The entry at `keyEnd` after a successful `assign`, when the value active at `keyEnd`
before the call differs from `val` and the conversion to `char` leaves it as it is. -/
theorem tailEntries_mem_end (s : interval_map K V) (b e : K) (v : V)
    (hs : strictlyIncreasing s.m_map) (hne : lookup s e ≠ v)
    (hconv : conv.narrow (lookup s e) = lookup s e) :
    (e, lookup s e) ∈ tailEntries conv s b e v := by
  by_cases hA : atEndOrKeyLt s.m_map (lower_bound s.m_map e) e = true
  · have hgt := (atEndOrKeyLt_iff _ _ _).mp hA
    have hadd : additionalElement conv s b e v = some (e, lookup s e) := by
      simp [additionalElement, hA, hconv, hne]
    unfold tailEntries
    rw [hadd]
    simp only
    rw [map_insert_before _ _ hgt]
    exact List.mem_cons_self _ _
  · obtain ⟨q, qs, hq, hqe⟩ := drop_of_entry_at_end s.m_map e hA
    rw [tailEntries_of_entry_at_end conv s b e v hA, hq]
    have hP := lower_bound_take_lt s.m_map e
    have hsq : strictlyIncreasing (q :: qs) :=
      hq ▸ strictlyIncreasing_of_sublist (List.drop_sublist _ _) hs
    obtain ⟨hqq, _⟩ := (strictlyIncreasing_cons q qs).mp hsq
    have hval : lookup s e = q.2 := by
      rw [lookup_eq_valueAt]
      conv_lhs => rw [← List.take_append_drop (lower_bound s.m_map e) s.m_map, hq]
      rw [valueAt_append_of_le _ _ _ _ (fun p hp => le_of_lt (hP p hp))]
      have hnq : ¬ e < q.1 := by rw [hqe]; exact lt_irrefl e
      simp only [valueAt, hnq, if_false]
      apply valueAt_of_head_gt
      intro p hp
      exact hqe ▸ hqq p (List.mem_of_mem_head? hp)
    have : q = (e, lookup s e) := by
      rw [hval, ← hqe]
    rw [this]
    exact List.mem_cons_self _ _

end TailLemmas

section RepeatAssign
variable {K V : Type} [LinearOrder K] [DecidableEq V] (conv : CharConversion V)

theorem tailEntries_head_ge (s : interval_map K V) (b e : K) (v : V) :
    ∀ p ∈ (tailEntries conv s b e v).head?, e ≤ p.1 := by
  have hR := lower_bound_drop_head s.m_map e
  unfold tailEntries
  cases hadd : additionalElement conv s b e v with
  | none => exact hR
  | some x =>
    have hk : x.1 = e := additionalElement_key conv s b e v x hadd
    exact map_insert_head_ge x _ e (le_of_eq hk.symm) hR

/-- When the entries from `lower_bound(keyEnd)` on begin above `keyEnd` after the
rewrite, no pair was added, so the char of line 79 compared equal to `val`. -/
theorem narrow_eq_of_tail_head_gt (s : interval_map K V) (b e : K) (v : V)
    (hgt : ∀ p ∈ (tailEntries conv s b e v).head?, e < p.1) :
    conv.narrow (lookup s e) = v := by
  by_cases hA : atEndOrKeyLt s.m_map (lower_bound s.m_map e) e = true
  · by_contra hv
    have hgt0 := (atEndOrKeyLt_iff _ _ _).mp hA
    have hadd : additionalElement conv s b e v = some (e, conv.narrow (lookup s e)) := by
      simp [additionalElement, hA, hv]
    have hT : tailEntries conv s b e v =
        (e, conv.narrow (lookup s e)) :: s.m_map.drop (lower_bound s.m_map e) := by
      unfold tailEntries
      rw [hadd]
      exact map_insert_before _ _ hgt0
    rw [hT] at hgt
    exact absurd (hgt (e, conv.narrow (lookup s e)) (by simp)) (lt_irrefl e)
  · obtain ⟨q, qs, hq, hqe⟩ := drop_of_entry_at_end s.m_map e hA
    rw [tailEntries_of_entry_at_end conv s b e v hA, hq] at hgt
    have := hgt q (by simp)
    rw [hqe] at this
    exact absurd this (lt_irrefl e)

/-- Rewriting the entries a second time with the same arguments changes nothing. -/
theorem mutate_mutate (s : interval_map K V) (b e : K) (v : V) (hbe : b < e) :
    mutate conv (mutate conv s b e v) b e v = mutate conv s b e v := by
  have hL := lower_bound_take_lt s.m_map b
  have hT := tailEntries_head_ge conv s b e v
  have hm := mutate_m_map conv s b e v hbe
  have hLe : ∀ p ∈ s.m_map.take (lower_bound s.m_map b), p.1 < e :=
    fun p hp => lt_trans (hL p hp) hbe
  have hLle : ∀ p ∈ s.m_map.take (lower_bound s.m_map b), p.1 ≤ e :=
    fun p hp => le_of_lt (hLe p hp)
  -- the two lower bounds in the rewritten map
  have hb1 : lower_bound (mutate conv s b e v).m_map b =
      (s.m_map.take (lower_bound s.m_map b)).length := by
    rw [hm, lower_bound_append _ _ _ hL]
    simp [lower_bound]
  have he1 : lower_bound (mutate conv s b e v).m_map e =
      (s.m_map.take (lower_bound s.m_map b)).length + 1 := by
    rw [hm, lower_bound_append _ _ _ hLe]
    simp [lower_bound, hbe, lower_bound_of_head_ge _ _ hT]
  have htake : (mutate conv s b e v).m_map.take (lower_bound (mutate conv s b e v).m_map b) =
      s.m_map.take (lower_bound s.m_map b) := by
    rw [hb1, hm, List.take_left']
    rfl
  have hdrop : (mutate conv s b e v).m_map.drop (lower_bound (mutate conv s b e v).m_map e) =
      tailEntries conv s b e v := by
    rw [he1, hm, List.drop_append]
    simp
  -- no additional element the second time
  have hadd : additionalElement conv (mutate conv s b e v) b e v = none := by
    unfold additionalElement
    by_cases hA : atEndOrKeyLt (mutate conv s b e v).m_map
        (lower_bound (mutate conv s b e v).m_map e) e = true
    · have hgt := (atEndOrKeyLt_iff _ _ _).mp hA
      rw [hdrop] at hgt
      have hval : lookup (mutate conv s b e v) e = v := by
        rw [lookup_eq_valueAt, hm, valueAt_append_of_le _ _ _ _ hLle]
        have : ¬ e < b := not_lt.mpr (le_of_lt hbe)
        simp only [valueAt, this, if_false]
        exact valueAt_of_head_gt _ _ _ hgt
      have hnar : conv.narrow v = v := by
        have h0 := narrow_eq_of_tail_head_gt conv s b e v hgt
        rw [← h0, conv.narrow_narrow]
      simp [hA, hval, hnar]
    · have hB : ¬ atEndOrKeyLt (mutate conv s b e v).m_map
          (lower_bound (mutate conv s b e v).m_map b) b = true := by
        rw [atEndOrKeyLt_iff, hb1, hm, List.drop_left']
        · simp
        · rfl
      simp [hA, hB]
  have hmm := mutate_m_map conv (mutate conv s b e v) b e v hbe
  unfold tailEntries at hmm
  rw [hadd] at hmm
  simp only at hmm
  rw [htake, hdrop] at hmm
  have hbase : (mutate conv (mutate conv s b e v) b e v).m_valBegin = (mutate conv s b e v).m_valBegin := rfl
  have hmap : (mutate conv (mutate conv s b e v) b e v).m_map = (mutate conv s b e v).m_map := by
    rw [hmm, hm]
  cases h1 : mutate conv (mutate conv s b e v) b e v with
  | mk vb mp =>
    cases h2 : mutate conv s b e v with
    | mk vb2 mp2 =>
      rw [h1, h2] at hbase hmap
      simp only at hbase hmap
      rw [hbase, hmap]

end RepeatAssign

section GuardLemmas
variable {K V : Type} [LinearOrder K] [DecidableEq V]

theorem duplicateBefore_iff (pastEnd : V) (s : interval_map K V) (b : K) (v : V) :
    duplicateBefore pastEnd s b v = true ↔
      ∃ i p, lower_bound s.m_map b = i + 1 ∧ i + 1 < s.m_map.length ∧
        s.m_map[i]? = some p ∧ p.2 = v := by
  have hle := lower_bound_le_length s.m_map b
  simp only [duplicateBefore, Bool.and_eq_true, decide_eq_true_eq]
  constructor
  · rintro ⟨⟨h1, h2⟩, h3⟩
    obtain ⟨i, hi⟩ := Nat.exists_eq_succ_of_ne_zero h2
    have hlt : i < s.m_map.length := by omega
    refine ⟨i, s.m_map[i], hi, by omega, List.getElem?_eq_getElem hlt, ?_⟩
    rw [hi] at h3
    simpa [second, List.getElem?_eq_getElem hlt] using h3
  · rintro ⟨i, p, hi, hlt, hp, hv⟩
    refine ⟨⟨by omega, by omega⟩, ?_⟩
    rw [hi]
    simp [second, hp, hv]

theorem duplicateAfter_iff (pastEnd : V) (s : interval_map K V) (e : K) (v : V) :
    duplicateAfter pastEnd s e v = true ↔
      lower_bound s.m_map e < s.m_map.length ∧
        ((∃ p, s.m_map[lower_bound s.m_map e + 1]? = some p ∧ p.2 = v) ∨
         (lower_bound s.m_map e + 1 = s.m_map.length ∧ pastEnd = v)) := by
  have hle := lower_bound_le_length s.m_map e
  simp only [duplicateAfter, Bool.and_eq_true, decide_eq_true_eq]
  constructor
  · rintro ⟨h1, h2⟩
    refine ⟨by omega, ?_⟩
    by_cases hlt : lower_bound s.m_map e + 1 < s.m_map.length
    · left
      refine ⟨s.m_map[lower_bound s.m_map e + 1], List.getElem?_eq_getElem hlt, ?_⟩
      simpa [second, List.getElem?_eq_getElem hlt] using h2
    · right
      have hnone : s.m_map[lower_bound s.m_map e + 1]? = none :=
        List.getElem?_eq_none (by omega)
      refine ⟨by omega, ?_⟩
      simpa [second, hnone] using h2
  · rintro ⟨h1, h2⟩
    refine ⟨by omega, ?_⟩
    rcases h2 with ⟨p, hp, hv⟩ | ⟨hlen, hv⟩
    · simp [second, hp, hv]
    · have hnone : s.m_map[lower_bound s.m_map e + 1]? = none :=
        List.getElem?_eq_none (by omega)
      simp [second, hnone, hv]

end GuardLemmas

section LookupClaim
variable {K V : Type} [LinearOrder K]

/-- C3: `lookup` is total and equals its reference definition.  For every store whose
keys are strictly increasing and every key, the body of `operator[]` never reads through
an iterator that is not at an entry and returns `lookup`; that value is `m_valBegin`
when no stored key is `≤ key`, and otherwise the value of the stored entry with the
greatest key `≤ key`. -/
theorem lookup_reference (s : interval_map K V) (key : K)
    (hsorted : strictlyIncreasing s.m_map) :
    lookupOpt s key = some (lookup s key) ∧
    ((∀ p ∈ s.m_map, ¬ p.1 ≤ key) → lookup s key = s.m_valBegin) ∧
    (∀ p ∈ s.m_map, p.1 ≤ key → (∀ q ∈ s.m_map, q.1 ≤ key → q.1 ≤ p.1) →
      lookup s key = p.2) := by
  refine ⟨lookupOpt_eq_some_lookup s key, ?_, ?_⟩
  · intro hnone
    rw [lookup_eq_valueAt]
    apply valueAt_of_head_gt
    intro p hp
    exact not_le.mp (hnone p (List.mem_of_mem_head? hp))
  · intro p hp hpk hmax
    rw [lookup_eq_valueAt]
    exact valueAt_of_greatest _ _ _ hsorted p hp hpk hmax

end LookupClaim

section Claims
variable {K V : Type} [LinearOrder K] [DecidableEq V]

/-- The pointwise postcondition of `assign` (the property of C1) when the conversion to
`char` of line 79 leaves the value active at `keyEnd` as it is, as it does for
`V = char`: for every store whose keys are strictly increasing, all keys
`keyBegin < keyEnd` and every value, whatever a read past the last entry yields, if
`assign(keyBegin, keyEnd, val)` succeeds, then at every key `k` the lookup afterwards is
`val` when `keyBegin ≤ k < keyEnd`, and is the lookup before the call otherwise. -/
theorem assign_pointwise (conv : CharConversion V) (pastEnd : V)
    (s : interval_map K V) (keyBegin keyEnd : K)
    (val : V) (_hsorted : strictlyIncreasing s.m_map) (hlt : keyBegin < keyEnd)
    (hconv : conv.narrow (lookup s keyEnd) = lookup s keyEnd)
    (hok : (assign conv pastEnd s keyBegin keyEnd val).1 = Outcome.ok) (k : K) :
    lookup (assign conv pastEnd s keyBegin keyEnd val).2 k =
      if keyBegin ≤ k ∧ k < keyEnd then val else lookup s k := by
  rw [assign_snd_of_ok conv pastEnd s keyBegin keyEnd val hlt hok]
  exact lookup_mutate conv s keyBegin keyEnd val hlt k (fun _ => hconv)

/-- C4: atomicity on failure.  For every store and all arguments, if `assign` fails
(with the redundant-base error or the consecutive-entries error), the store after the
call is the store before it: same `m_valBegin`, same entries. -/
theorem assign_failure_unmodified (conv : CharConversion V) (pastEnd : V)
    (s : interval_map K V)
    (keyBegin keyEnd : K) (val : V)
    (hfail : (assign conv pastEnd s keyBegin keyEnd val).1 ≠ Outcome.ok) :
    (assign conv pastEnd s keyBegin keyEnd val).2 = s :=
  assign_snd_of_ne_ok conv pastEnd s keyBegin keyEnd val hfail

/-- C5: empty-range no-op.  For every store, every value and all keys with
`¬ keyBegin < keyEnd`, `assign` returns without error and leaves the store as it was,
so the lookup at every key is unchanged. -/
theorem assign_empty_range (conv : CharConversion V) (pastEnd : V)
    (s : interval_map K V) (keyBegin keyEnd : K)
    (val : V) (hempty : ¬ keyBegin < keyEnd) :
    assign conv pastEnd s keyBegin keyEnd val = (Outcome.ok, s) ∧
    ∀ k, lookup (assign conv pastEnd s keyBegin keyEnd val).2 k = lookup s k := by
  have h := assign_of_not_lt conv pastEnd s keyBegin keyEnd val hempty
  exact ⟨h, fun k => by rw [h]⟩

/-- C6: the redundant-base error on a store without entries.  For every store with no
entries and all `keyBegin < keyEnd`, `assign` fails if and only if `val = m_valBegin`;
when it fails, it fails with the redundant-base error, the store still has no entries
and the lookup is `m_valBegin` at every key. -/
theorem assign_empty_store_fails_iff (conv : CharConversion V) (pastEnd : V)
    (s : interval_map K V)
    (keyBegin keyEnd : K) (val : V) (hnoEntries : s.m_map = [])
    (hlt : keyBegin < keyEnd) :
    ((assign conv pastEnd s keyBegin keyEnd val).1 ≠ Outcome.ok ↔ val = s.m_valBegin) ∧
    ((assign conv pastEnd s keyBegin keyEnd val).1 ≠ Outcome.ok →
      (assign conv pastEnd s keyBegin keyEnd val).1 = Outcome.redundantBase ∧
      (assign conv pastEnd s keyBegin keyEnd val).2.m_map = [] ∧
      ∀ k, lookup (assign conv pastEnd s keyBegin keyEnd val).2 k = s.m_valBegin) := by
  have hb : duplicateBefore pastEnd s keyBegin val = false := by
    simp [duplicateBefore, hnoEntries, lower_bound]
  have ha : duplicateAfter pastEnd s keyEnd val = false := by
    simp [duplicateAfter, hnoEntries, lower_bound]
  have hlookup : ∀ k, lookup s k = s.m_valBegin := by
    intro k
    rw [lookup_eq_valueAt, hnoEntries]
    rfl
  rcases assign_cases conv pastEnd s keyBegin keyEnd val hlt with h | h | h | h
  · obtain ⟨h1, _, h3⟩ := h
    rw [h1]
    exact ⟨⟨fun _ => h3, fun _ => by simp⟩, fun _ => ⟨rfl, hnoEntries, hlookup⟩⟩
  · rw [hb] at h
    exact absurd h.2.2 (by simp)
  · rw [ha] at h
    exact absurd h.2.2.2 (by simp)
  · obtain ⟨h1, h2, _⟩ := h
    rw [h1]
    have hne : val ≠ s.m_valBegin := fun hv => h2 ⟨hnoEntries, hv⟩
    exact ⟨⟨fun hf => absurd rfl hf, fun hv => absurd hv hne⟩, fun hf => absurd rfl hf⟩

/-- The guards of lines 47-71 as the code has them: on a store that satisfies I1 and for
`keyBegin < keyEnd`, `assign` fails with the consecutive-entries error exactly when `lower_bound(keyBegin)` is a
stored entry other than the first and the entry just before it carries `val`, or
`lower_bound(keyEnd)` is a stored entry and the value read one position after it (the
value of a stored entry, or what the read past the last entry yields) equals `val`;
such a failure leaves the store as it was. -/
theorem assign_consecutiveEntries_iff (conv : CharConversion V) (pastEnd : V)
    (s : interval_map K V)
    (keyBegin keyEnd : K) (val : V) (_hI1 : canonical s) (hlt : keyBegin < keyEnd) :
    ((assign conv pastEnd s keyBegin keyEnd val).1 = Outcome.consecutiveEntries ↔
      (∃ i p, lower_bound s.m_map keyBegin = i + 1 ∧ i + 1 < s.m_map.length ∧
        s.m_map[i]? = some p ∧ p.2 = val) ∨
      (lower_bound s.m_map keyEnd < s.m_map.length ∧
        ((∃ p, s.m_map[lower_bound s.m_map keyEnd + 1]? = some p ∧ p.2 = val) ∨
         (lower_bound s.m_map keyEnd + 1 = s.m_map.length ∧ pastEnd = val)))) ∧
    ((assign conv pastEnd s keyBegin keyEnd val).1 = Outcome.consecutiveEntries →
      (assign conv pastEnd s keyBegin keyEnd val).2 = s) := by
  refine ⟨?_, fun h => assign_snd_of_ne_ok conv pastEnd s keyBegin keyEnd val (by rw [h]; simp)⟩
  rw [← duplicateBefore_iff pastEnd s keyBegin val, ← duplicateAfter_iff pastEnd s keyEnd val]
  rcases assign_cases conv pastEnd s keyBegin keyEnd val hlt with h | h | h | h
  · obtain ⟨h1, h2, _⟩ := h
    have hb : duplicateBefore pastEnd s keyBegin val = false := by
      simp [duplicateBefore, h2, lower_bound]
    have ha : duplicateAfter pastEnd s keyEnd val = false := by
      simp [duplicateAfter, h2, lower_bound]
    rw [h1, hb, ha]
    simp
  · rw [h.1, h.2.2]
    simp
  · rw [h.1, h.2.2.2]
    simp
  · rw [h.1, h.2.2.1, h.2.2.2]
    simp

/-- C8: idempotence under immediate repetition.  For every store and all arguments, if
`assign(keyBegin, keyEnd, val)` succeeds and yields the store `s1`, then the store after
calling `assign(keyBegin, keyEnd, val)` again on `s1` is `s1` (whatever the reads past
the last entry yield in the two calls, and whatever the conversion to `char` of lines
79 and 90 does to a value). -/
theorem assign_idempotent (conv : CharConversion V) (pastEnd pastEnd2 : V)
    (s : interval_map K V)
    (keyBegin keyEnd : K) (val : V)
    (hok : (assign conv pastEnd s keyBegin keyEnd val).1 = Outcome.ok) :
    (assign conv pastEnd2 (assign conv pastEnd s keyBegin keyEnd val).2 keyBegin keyEnd val).2 =
      (assign conv pastEnd s keyBegin keyEnd val).2 := by
  by_cases hlt : keyBegin < keyEnd
  · rw [assign_snd_of_ok conv pastEnd s keyBegin keyEnd val hlt hok]
    by_cases hok2 : (assign conv pastEnd2 (mutate conv s keyBegin keyEnd val) keyBegin keyEnd val).1 =
        Outcome.ok
    · rw [assign_snd_of_ok conv pastEnd2 _ keyBegin keyEnd val hlt hok2]
      exact mutate_mutate conv s keyBegin keyEnd val hlt
    · exact assign_snd_of_ne_ok conv pastEnd2 _ keyBegin keyEnd val hok2
  · rw [assign_of_not_lt conv pastEnd s keyBegin keyEnd val hlt,
      assign_of_not_lt conv pastEnd2 s keyBegin keyEnd val hlt]

/-- The right-edge invariant (the property of C9) when the conversion to `char` of line
79 leaves the value active at `keyEnd` as it is, as it does for `V = char`: for every
store and all arguments (empty ranges included), if `assign(keyBegin, keyEnd, val)` does
not fail then the lookup at `keyEnd` after the call equals the lookup at `keyEnd` before
it. -/
theorem assign_right_edge (conv : CharConversion V) (pastEnd : V)
    (s : interval_map K V) (keyBegin keyEnd : K) (val : V)
    (hconv : conv.narrow (lookup s keyEnd) = lookup s keyEnd)
    (hok : (assign conv pastEnd s keyBegin keyEnd val).1 = Outcome.ok) :
    lookup (assign conv pastEnd s keyBegin keyEnd val).2 keyEnd = lookup s keyEnd := by
  by_cases hlt : keyBegin < keyEnd
  · rw [assign_snd_of_ok conv pastEnd s keyBegin keyEnd val hlt hok,
      lookup_mutate conv s keyBegin keyEnd val hlt keyEnd (fun _ => hconv)]
    simp
  · rw [assign_of_not_lt conv pastEnd s keyBegin keyEnd val hlt]

/-- C10: left-edge invariant.  For every store and all `keyBegin < keyEnd`, if
`assign(keyBegin, keyEnd, val)` succeeds then the lookup at `keyBegin` after the call
is `val` (whatever the conversion to `char` of lines 79 and 90 does to a value). -/
theorem assign_left_edge (conv : CharConversion V) (pastEnd : V)
    (s : interval_map K V) (keyBegin keyEnd : K)
    (val : V) (hlt : keyBegin < keyEnd)
    (hok : (assign conv pastEnd s keyBegin keyEnd val).1 = Outcome.ok) :
    lookup (assign conv pastEnd s keyBegin keyEnd val).2 keyBegin = val := by
  rw [assign_snd_of_ok conv pastEnd s keyBegin keyEnd val hlt hok,
    lookup_mutate conv s keyBegin keyEnd val hlt keyBegin
      (fun h => absurd hlt (not_lt.mpr h))]
  simp [hlt]

end Claims

section Instances

/-- Scenario 2 of the spec, where `V` is `char`: from `construct('x')`,
`assign(1, 5, 'A')` succeeds and gives `lookup(0) = 'x'`, `lookup(1) = 'A'`, `lookup(4) = 'A'`,
`lookup(5) = 'x'`. -/
theorem assign_pointwise_witness :
    strictlyIncreasing freshStore.m_map ∧ (1 : Int) < 5 ∧
    (assign noConversion '?' freshStore 1 5 'A').1 = Outcome.ok ∧
    lookup (assign noConversion '?' freshStore 1 5 'A').2 0 = 'x' ∧
    lookup (assign noConversion '?' freshStore 1 5 'A').2 1 = 'A' ∧
    lookup (assign noConversion '?' freshStore 1 5 'A').2 4 = 'A' ∧
    lookup (assign noConversion '?' freshStore 1 5 'A').2 5 = 'x' :=
  ⟨by decide, by decide, by decide,
    (assign_pointwise noConversion '?' freshStore 1 5 'A' (by decide) (by decide) rfl
      (by decide) 0).trans
      (by decide),
    (assign_pointwise noConversion '?' freshStore 1 5 'A' (by decide) (by decide) rfl
      (by decide) 1).trans
      (by decide),
    (assign_pointwise noConversion '?' freshStore 1 5 'A' (by decide) (by decide) rfl
      (by decide) 4).trans
      (by decide),
    (assign_pointwise noConversion '?' freshStore 1 5 'A' (by decide) (by decide) rfl
      (by decide) 5).trans
      (by decide)⟩

/-- C2 at its failing input: the store of Scenario 2 satisfies I1 and has strictly
increasing keys, `assign(6, 8, 'x')` succeeds on it (no read past the last entry is
made), and the store it leaves has the consecutive entries `(5, 'x')`, `(6, 'x')`, so it
does not satisfy I1. -/
theorem assign_breaks_canonical :
    scenario2 = { m_valBegin := 'x', m_map := [(1, 'A'), (5, 'x')] } ∧
    canonical scenario2 ∧ strictlyIncreasing scenario2.m_map ∧
    assign noConversion '?' scenario2 6 8 'x' =
      (Outcome.ok, { m_valBegin := 'x', m_map := [(1, 'A'), (5, 'x'), (6, 'x')] }) ∧
    ¬ canonical (assign noConversion '?' scenario2 6 8 'x').2 := by
  decide

/-- An instance of C3: in the store of Scenario 2, `operator[]` at key 4 returns the
value `'A'` of the entry with key 1, the greatest stored key `≤ 4`. -/
theorem lookup_reference_witness :
    strictlyIncreasing scenario2.m_map ∧ lookupOpt scenario2 4 = some 'A' ∧
    lookup scenario2 4 = 'A' :=
  ⟨by decide, (lookup_reference scenario2 4 (by decide)).1.trans (by decide),
    (lookup_reference scenario2 4 (by decide)).2.2 (1, 'A') (by decide) (by decide)
      (by decide)⟩

/-- Scenario 5 of the spec, an instance of C4: `assign(1, 5, 'x')` on `construct('x')`
fails and leaves the store as it was. -/
theorem assign_failure_unmodified_witness :
    (assign noConversion '?' freshStore 1 5 'x').1 ≠ Outcome.ok ∧
    (assign noConversion '?' freshStore 1 5 'x').2 = freshStore :=
  ⟨by decide, assign_failure_unmodified noConversion '?' freshStore 1 5 'x' (by decide)⟩

/-- Scenario 1 of the spec, an instance of C5: `assign(0, 0, 'y')` on `construct('x')`
is a no-op and `lookup(0)` is still `'x'`. -/
theorem assign_empty_range_witness :
    ¬ (0 : Int) < 0 ∧ assign noConversion '?' freshStore 0 0 'y' = (Outcome.ok, freshStore) ∧
    lookup (assign noConversion '?' freshStore 0 0 'y').2 0 = 'x' :=
  ⟨by decide, (assign_empty_range noConversion '?' freshStore 0 0 'y' (by decide)).1,
    ((assign_empty_range noConversion '?' freshStore 0 0 'y' (by decide)).2 0).trans (by decide)⟩

/-- Scenario 5 of the spec, an instance of C6: `assign(1, 5, 'x')` as the first call on
`construct('x')` fails with the redundant-base error, the store stays without entries
and the lookup (here at key 3) is still `'x'`. -/
theorem assign_empty_store_fails_iff_witness :
    freshStore.m_map = [] ∧ (1 : Int) < 5 ∧
    (assign noConversion '?' freshStore 1 5 'x').1 = Outcome.redundantBase ∧
    (assign noConversion '?' freshStore 1 5 'x').2.m_map = [] ∧
    lookup (assign noConversion '?' freshStore 1 5 'x').2 3 = 'x' :=
  have h := assign_empty_store_fails_iff noConversion '?' freshStore 1 5 'x' rfl (by decide)
  have hfail := h.2 (h.1.mpr rfl)
  ⟨rfl, by decide, hfail.1, hfail.2.1, hfail.2.2 3⟩

/-- Scenario 3 of the spec, against C7 as stated: the store of Scenario 2 satisfies I1,
`2 < 3`, and `assign(2, 3, 'A')` fails on it with the consecutive-entries error (the
entry `(1, 'A')` just before `lower_bound(2)` carries `'A'`). -/
theorem scenario3_fails :
    canonical scenario2 ∧ (2 : Int) < 3 ∧
    (assign noConversion '?' scenario2 2 3 'A').1 = Outcome.consecutiveEntries := by
  decide

/-- Scenario 3 of the spec through the guards of lines 47-71: `assign(2, 3, 'A')` fails
with the consecutive-entries error on the store of Scenario 2 and leaves it as it was. -/
theorem assign_consecutiveEntries_iff_witness :
    canonical scenario2 ∧ (2 : Int) < 3 ∧
    (assign noConversion '?' scenario2 2 3 'A').1 = Outcome.consecutiveEntries ∧
    (assign noConversion '?' scenario2 2 3 'A').2 = scenario2 :=
  have h := assign_consecutiveEntries_iff noConversion '?' scenario2 2 3 'A' (by decide) (by decide)
  have hfail : (assign noConversion '?' scenario2 2 3 'A').1 = Outcome.consecutiveEntries :=
    h.1.mpr (Or.inl ⟨0, (1, 'A'), by decide, by decide, by decide, rfl⟩)
  ⟨by decide, by decide, hfail, h.2 hfail⟩

/-- An instance of C8: `assign(1, 5, 'A')` succeeds on `construct('x')`, and calling it
again on the resulting store leaves that store. -/
theorem assign_idempotent_witness :
    (assign noConversion '?' freshStore 1 5 'A').1 = Outcome.ok ∧
    (assign noConversion '?' (assign noConversion '?' freshStore 1 5 'A').2 1 5 'A').2 =
      (assign noConversion '?' freshStore 1 5 'A').2 :=
  ⟨by decide, assign_idempotent noConversion '?' '?' freshStore 1 5 'A' (by decide)⟩

/-- The right edge in Scenario 2, where `V` is `char`: `assign(1, 5, 'A')` on
`construct('x')` leaves `lookup(5)`. -/
theorem assign_right_edge_witness :
    (assign noConversion '?' freshStore 1 5 'A').1 = Outcome.ok ∧
    lookup (assign noConversion '?' freshStore 1 5 'A').2 5 = lookup freshStore 5 :=
  ⟨by decide, assign_right_edge noConversion '?' freshStore 1 5 'A' rfl (by decide)⟩

/-- An instance of C10: after `assign(1, 5, 'A')` on `construct('x')`, `lookup(1)` is
`'A'`. -/
theorem assign_left_edge_witness :
    (1 : Int) < 5 ∧ (assign noConversion '?' freshStore 1 5 'A').1 = Outcome.ok ∧
    lookup (assign noConversion '?' freshStore 1 5 'A').2 1 = 'A' :=
  ⟨by decide, by decide, assign_left_edge noConversion '?' freshStore 1 5 'A' (by decide) (by decide)⟩

end Instances

section ConstructClaim
variable {K V : Type} [LinearOrder K]

/-- C12: construction.  For every value `val` and every key, the lookup on
`construct(val)` returns `val`, and the constructed store has no boundaries. -/
theorem construct_lookup (val : V) (key : K) :
    lookup (construct val : interval_map K V) key = val ∧
    (construct val : interval_map K V).m_map = [] := by
  refine ⟨?_, rfl⟩
  rw [lookup_eq_valueAt]
  rfl

end ConstructClaim

section FrameClaims
variable {K V : Type} [LinearOrder K] [DecidableEq V]

/-- The tail boundary (the property of C14) when the conversion to `char` of line 79
leaves the value active at `keyEnd` as it is, as it does for `V = char`: for every store
whose keys are strictly increasing, all `keyBegin < keyEnd` and every value, with
`tailValue` the lookup at `keyEnd` before the call, if `tailValue ≠ val` and `assign`
succeeds, the resulting store has the entry `(keyEnd, tailValue)`. -/
theorem assign_tail_boundary (conv : CharConversion V) (pastEnd : V)
    (s : interval_map K V) (keyBegin keyEnd : K)
    (val : V) (hsorted : strictlyIncreasing s.m_map) (hlt : keyBegin < keyEnd)
    (hne : lookup s keyEnd ≠ val)
    (hconv : conv.narrow (lookup s keyEnd) = lookup s keyEnd)
    (hok : (assign conv pastEnd s keyBegin keyEnd val).1 = Outcome.ok) :
    (keyEnd, lookup s keyEnd) ∈ (assign conv pastEnd s keyBegin keyEnd val).2.m_map := by
  rw [assign_snd_of_ok conv pastEnd s keyBegin keyEnd val hlt hok,
    mutate_m_map conv s keyBegin keyEnd val hlt]
  apply List.mem_append_right
  apply List.mem_cons_of_mem
  exact tailEntries_mem_end conv s keyBegin keyEnd val hsorted hne hconv

/-- C16: range removal and frame of the boundary map.  For every store with strictly
increasing keys and all `keyBegin < keyEnd`, if `assign` succeeds then (i) every entry
of the resulting store with a key in `[keyBegin, keyEnd)` is `(keyBegin, val)`, which is
an entry, and (ii) the entries with key `< keyBegin` and the entries with key `> keyEnd`
are the ones of the store before the call, and `m_valBegin` is unchanged. -/
theorem assign_frame (conv : CharConversion V) (pastEnd : V)
    (s : interval_map K V) (keyBegin keyEnd : K)
    (val : V) (hsorted : strictlyIncreasing s.m_map) (hlt : keyBegin < keyEnd)
    (hok : (assign conv pastEnd s keyBegin keyEnd val).1 = Outcome.ok) :
    (∀ p ∈ (assign conv pastEnd s keyBegin keyEnd val).2.m_map,
      keyBegin ≤ p.1 → p.1 < keyEnd → p = (keyBegin, val)) ∧
    (keyBegin, val) ∈ (assign conv pastEnd s keyBegin keyEnd val).2.m_map ∧
    (assign conv pastEnd s keyBegin keyEnd val).2.m_map.filter (fun p => decide (p.1 < keyBegin)) =
      s.m_map.filter (fun p => decide (p.1 < keyBegin)) ∧
    (assign conv pastEnd s keyBegin keyEnd val).2.m_map.filter (fun p => decide (keyEnd < p.1)) =
      s.m_map.filter (fun p => decide (keyEnd < p.1)) ∧
    (assign conv pastEnd s keyBegin keyEnd val).2.m_valBegin = s.m_valBegin := by
  have hL := lower_bound_take_lt s.m_map keyBegin
  have hD := lower_bound_drop_ge s.m_map keyBegin hsorted
  have hP := lower_bound_take_lt s.m_map keyEnd
  have hT := tailEntries_ge conv s keyBegin keyEnd val hsorted
  rw [assign_snd_of_ok conv pastEnd s keyBegin keyEnd val hlt hok]
  refine ⟨?_, ?_, ?_, ?_, rfl⟩
  · intro p hp hbp hpe
    rw [mutate_m_map conv s keyBegin keyEnd val hlt] at hp
    rcases List.mem_append.mp hp with hp1 | hp2
    · exact absurd (hL p hp1) (not_lt.mpr hbp)
    · rcases List.mem_cons.mp hp2 with rfl | hp3
      · rfl
      · exact absurd hpe (not_lt.mpr (hT p hp3))
  · rw [mutate_m_map conv s keyBegin keyEnd val hlt]
    exact List.mem_append_right _ (List.mem_cons_self _ _)
  · rw [mutate_m_map conv s keyBegin keyEnd val hlt]
    rw [filter_append_of_left_true_right_false _ _ _ (fun p hp => by simpa using hL p hp)]
    · conv_rhs => rw [← List.take_append_drop (lower_bound s.m_map keyBegin) s.m_map]
      rw [filter_append_of_left_true_right_false _ _ _
        (fun p hp => by simpa using hL p hp) (fun p hp => by simpa using hD p hp)]
    · intro p hp
      rcases List.mem_cons.mp hp with rfl | hp3
      · simp
      · simpa using le_trans (le_of_lt hlt) (hT p hp3)
  · rw [mutate_m_map conv s keyBegin keyEnd val hlt]
    rw [filter_append_of_left_false _ _ _
      (fun p hp => by simpa using le_of_lt (lt_trans (hL p hp) hlt))]
    have hb : decide (keyEnd < (keyBegin, val).1) = false := by
      simpa using le_of_lt hlt
    rw [List.filter_cons, hb]
    simp only [Bool.false_eq_true, if_false]
    conv_rhs => rw [← List.take_append_drop (lower_bound s.m_map keyEnd) s.m_map]
    rw [filter_append_of_left_false _ _ _ (fun p hp => by simpa using le_of_lt (hP p hp))]
    rcases tailEntries_cases conv s keyBegin keyEnd val with h | ⟨x, h⟩
    · rw [h]
    · rw [h, List.filter_cons]
      simp

/-- C18: key-order invariant of the boundary map.  The constructed store has strictly
increasing keys, and for every store whose keys are strictly increasing and all
arguments, the store after `assign` (whether it succeeds, fails or is a no-op) again has
strictly increasing keys. -/
theorem assign_keeps_key_order (conv : CharConversion V) (base pastEnd : V)
    (s : interval_map K V)
    (keyBegin keyEnd : K) (val : V) (hsorted : strictlyIncreasing s.m_map) :
    strictlyIncreasing (construct base : interval_map K V).m_map ∧
    strictlyIncreasing (assign conv pastEnd s keyBegin keyEnd val).2.m_map := by
  refine ⟨List.Pairwise.nil, ?_⟩
  by_cases hok : (assign conv pastEnd s keyBegin keyEnd val).1 = Outcome.ok
  · by_cases hlt : keyBegin < keyEnd
    · rw [assign_snd_of_ok conv pastEnd s keyBegin keyEnd val hlt hok]
      exact mutate_strictlyIncreasing conv s keyBegin keyEnd val hlt hsorted
    · rw [assign_of_not_lt conv pastEnd s keyBegin keyEnd val hlt]
      exact hsorted
  · rw [assign_snd_of_ne_ok conv pastEnd s keyBegin keyEnd val hok]
    exact hsorted

end FrameClaims

section PredecessorClaim
variable {K V : Type} [LinearOrder K] [DecidableEq V]

/-- C7 (as amended): the consecutive-entries failure also occurs on canonical stores.
For every store that satisfies I1 and all `keyBegin < keyEnd`, whenever
`lower_bound(keyBegin)` is a stored entry other than the first and the stored entry just
before it carries `val`, `assign` fails with the consecutive-entries error and leaves
the store as it was. -/
theorem assign_fails_on_equal_predecessor (conv : CharConversion V) (pastEnd : V)
    (s : interval_map K V)
    (keyBegin keyEnd : K) (val : V) (_hI1 : canonical s) (hlt : keyBegin < keyEnd)
    (hpred : ∃ i p, lower_bound s.m_map keyBegin = i + 1 ∧ i + 1 < s.m_map.length ∧
      s.m_map[i]? = some p ∧ p.2 = val) :
    assign conv pastEnd s keyBegin keyEnd val = (Outcome.consecutiveEntries, s) := by
  have hb : duplicateBefore pastEnd s keyBegin val = true :=
    (duplicateBefore_iff pastEnd s keyBegin val).mpr hpred
  rcases assign_cases conv pastEnd s keyBegin keyEnd val hlt with h | h | h | h
  · obtain ⟨i, p, _, hlen, _, _⟩ := hpred
    rw [h.2.1] at hlen
    exact absurd hlen (Nat.not_lt_zero _)
  · exact h.1
  · rw [hb] at h
    exact absurd h.2.2.1 (by simp)
  · rw [hb] at h
    exact absurd h.2.2.1 (by simp)

end PredecessorClaim

section MoreInstances

/-- Scenario 3 of the spec, an instance of C7 as amended: on the store of Scenario 2,
which satisfies I1, `assign(2, 3, 'A')` fails with the consecutive-entries error and
leaves the store (its lookups and its boundaries) as it was. -/
theorem assign_fails_on_equal_predecessor_witness :
    canonical scenario2 ∧ (2 : Int) < 3 ∧
    assign noConversion '?' scenario2 2 3 'A' = (Outcome.consecutiveEntries, scenario2) :=
  ⟨by decide, by decide,
    assign_fails_on_equal_predecessor noConversion '?' scenario2 2 3 'A' (by decide) (by decide)
      ⟨0, (1, 'A'), by decide, by decide, by decide, rfl⟩⟩

/-- C11 at its input (Scenario 4 of the spec): on the store of Scenario 2,
`assign(1, 5, 'x')` reads past the last entry at line 64; when that read yields `'x'`
the call fails and leaves the two entries, otherwise it succeeds and leaves the entries
`(1, 'x')`, `(5, 'x')`.  In both cases the store keeps two boundaries. -/
theorem scenario4_keeps_boundaries (pastEnd : Char) :
    assign noConversion pastEnd scenario2 1 5 'x' =
      (if pastEnd = 'x' then (Outcome.consecutiveEntries, scenario2)
       else (Outcome.ok, { m_valBegin := 'x', m_map := [(1, 'x'), (5, 'x')] })) ∧
    (assign noConversion pastEnd scenario2 1 5 'x').2.m_map.length = 2 := by
  have hs : scenario2 = { m_valBegin := 'x', m_map := [(1, 'A'), (5, 'x')] } := by decide
  have hb : duplicateBefore pastEnd scenario2 1 'x' = false := by
    rw [hs]
    rfl
  have ha : duplicateAfter pastEnd scenario2 5 'x' = decide (pastEnd = 'x') := by
    rw [hs]
    rfl
  have hm : mutate noConversion scenario2 1 5 'x' =
      { m_valBegin := 'x', m_map := [(1, 'x'), (5, 'x')] } := by decide
  have hlen : scenario2.m_map.length = 2 := by decide
  rcases assign_cases noConversion pastEnd scenario2 1 5 'x' (by decide) with h | h | h | h
  · exact absurd h.2.1 (by decide)
  · rw [hb] at h
    exact absurd h.2.2 (by simp)
  · obtain ⟨h1, _, _, h4⟩ := h
    rw [ha] at h4
    have hp : pastEnd = 'x' := of_decide_eq_true h4
    rw [h1, if_pos hp]
    exact ⟨rfl, hlen⟩
  · obtain ⟨h1, _, _, h4⟩ := h
    rw [ha] at h4
    have hp : ¬ pastEnd = 'x' := of_decide_eq_false h4
    rw [h1, if_neg hp, hm]
    exact ⟨rfl, rfl⟩

/-- C13 at its failing input: in the store of Scenario 2 the value active immediately
before key 6 is `'x'`, `assign(6, 8, 'x')` succeeds, and the resulting store has a
boundary at key 6. -/
theorem predecessor_not_merged :
    valueBefore scenario2 6 = 'x' ∧ (6 : Int) < 8 ∧
    (assign noConversion '?' scenario2 6 8 'x').1 = Outcome.ok ∧
    hasBoundaryAt (assign noConversion '?' scenario2 6 8 'x').2 6 := by
  decide

/-- C15 at its failing input: the store after `construct('x')`, `assign(5, 7, 'A')` has
the entries `(5, 'A')`, `(7, 'x')`, so the lookup at key 5 is `'A'`; `assign(1, 5, 'A')`
succeeds on it (reading no value past the last entry) and the resulting store still has
a boundary at key 5. -/
theorem successor_not_merged :
    scenarioFollowing = { m_valBegin := 'x', m_map := [(5, 'A'), (7, 'x')] } ∧
    lookup scenarioFollowing 5 = 'A' ∧ (1 : Int) < 5 ∧
    readsPastEnd '?' scenarioFollowing 1 5 'A' = false ∧
    assign noConversion '?' scenarioFollowing 1 5 'A' =
      (Outcome.ok, { m_valBegin := 'x', m_map := [(1, 'A'), (5, 'A'), (7, 'x')] }) ∧
    hasBoundaryAt (assign noConversion '?' scenarioFollowing 1 5 'A').2 5 := by
  decide

/-- C17 at two failing inputs.  In the store of Scenario 2 (not empty, keys strictly
increasing) the entry immediately preceding the range `[6, 8)` is `(5, 'x')`, yet
`assign(6, 8, 'x')` succeeds.  In the store with the entries `(5, 'A')`, `(7, 'x')` the
entry immediately following the range `[1, 5)` is `(5, 'A')`, yet `assign(1, 5, 'A')`
succeeds. -/
theorem consecutive_error_not_raised :
    (scenario2.m_map ≠ [] ∧ strictlyIncreasing scenario2.m_map ∧ (6 : Int) < 8 ∧
      entryBefore scenario2.m_map 6 = some (5, 'x') ∧
      (assign noConversion '?' scenario2 6 8 'x').1 = Outcome.ok) ∧
    (scenarioFollowing.m_map ≠ [] ∧ strictlyIncreasing scenarioFollowing.m_map ∧
      (1 : Int) < 5 ∧ entryFrom scenarioFollowing.m_map 5 = some (5, 'A') ∧
      (assign noConversion '?' scenarioFollowing 1 5 'A').1 = Outcome.ok) := by
  decide

/-- C19 at its failing input (Scenario 4 of the spec): on the store of Scenario 2, whose
keys are strictly increasing, `assign(1, 5, 'x')` reaches line 64; `lower_bound(5)` is
the stored entry `(5, 'x')` at position 1, no stored entry has a greater key, and the
position read at line 64 is not the position of an entry. -/
theorem scenario4_reads_past_end (pastEnd : Char) :
    readsPastEnd pastEnd scenario2 1 5 'x' = true ∧
    strictlyIncreasing scenario2.m_map ∧
    lower_bound scenario2.m_map 5 = 1 ∧ scenario2.m_map[1]? = some (5, 'x') ∧
    (∀ p ∈ scenario2.m_map, ¬ 5 < p.1) ∧
    scenario2.m_map[lower_bound scenario2.m_map 5 + 1]? = none := by
  have hs : scenario2 = { m_valBegin := 'x', m_map := [(1, 'A'), (5, 'x')] } := by decide
  refine ⟨?_, by decide, by decide, by decide, by decide, by decide⟩
  rw [hs]
  rfl

/-- The tail boundary in Scenario 2, where `V` is `char`: on `construct('x')` the
lookup at key 5 is `'x'`;
`assign(1, 5, 'A')` succeeds and the resulting store has the entry `(5, 'x')`. -/
theorem assign_tail_boundary_witness :
    strictlyIncreasing freshStore.m_map ∧ (1 : Int) < 5 ∧ lookup freshStore 5 ≠ 'A' ∧
    (assign noConversion '?' freshStore 1 5 'A').1 = Outcome.ok ∧
    ((5 : Int), 'x') ∈ (assign noConversion '?' freshStore 1 5 'A').2.m_map :=
  ⟨by decide, by decide, by decide, by decide,
    assign_tail_boundary noConversion '?' freshStore 1 5 'A' (by decide) (by decide) (by decide)
      rfl (by decide)⟩

/-- An instance of C16 on a store with entries on both sides of the range: on the store
with the entries `(1, 'A')`, `(5, 'x')`, `(9, 'A')`, `(12, 'x')`, `assign(2, 6, 'B')`
succeeds (reading no value past the last entry) and erases `(5, 'x')`; `(2, 'B')` is the
only entry with a key in `[2, 6)`, the entries with a key below 2 are `(1, 'A')` as
before, the entries with a key above 6 are `(9, 'A')`, `(12, 'x')` as before, and the
base value is still `'x'`. -/
theorem assign_frame_witness :
    strictlyIncreasing scenarioTwoRanges.m_map ∧ (2 : Int) < 6 ∧
    (assign noConversion '?' scenarioTwoRanges 2 6 'B').1 = Outcome.ok ∧
    readsPastEnd '?' scenarioTwoRanges 2 6 'B' = false ∧
    scenarioTwoRanges.m_map = [(1, 'A'), (5, 'x'), (9, 'A'), (12, 'x')] ∧
    (assign noConversion '?' scenarioTwoRanges 2 6 'B').2.m_map =
      [(1, 'A'), (2, 'B'), (6, 'x'), (9, 'A'), (12, 'x')] ∧
    (∀ p ∈ (assign noConversion '?' scenarioTwoRanges 2 6 'B').2.m_map,
      2 ≤ p.1 → p.1 < 6 → p = (2, 'B')) ∧
    ((2 : Int), 'B') ∈ (assign noConversion '?' scenarioTwoRanges 2 6 'B').2.m_map ∧
    (assign noConversion '?' scenarioTwoRanges 2 6 'B').2.m_map.filter
        (fun p => decide (p.1 < 2)) =
      scenarioTwoRanges.m_map.filter (fun p => decide (p.1 < 2)) ∧
    scenarioTwoRanges.m_map.filter (fun p => decide (p.1 < 2)) = [(1, 'A')] ∧
    (assign noConversion '?' scenarioTwoRanges 2 6 'B').2.m_map.filter
        (fun p => decide (6 < p.1)) =
      scenarioTwoRanges.m_map.filter (fun p => decide (6 < p.1)) ∧
    scenarioTwoRanges.m_map.filter (fun p => decide (6 < p.1)) = [(9, 'A'), (12, 'x')] ∧
    (assign noConversion '?' scenarioTwoRanges 2 6 'B').2.m_valBegin = 'x' :=
  have h := assign_frame noConversion '?' scenarioTwoRanges 2 6 'B' (by decide) (by decide)
    (by decide)
  ⟨by decide, by decide, by decide, by decide, by decide, by decide, h.1, h.2.1, h.2.2.1,
    by decide, h.2.2.2.1, by decide, h.2.2.2.2⟩

/-- An instance of C18: the store of Scenario 2 has strictly increasing keys, and so has
the store after `assign(6, 8, 'B')` on it. -/
theorem assign_keeps_key_order_witness :
    strictlyIncreasing scenario2.m_map ∧
    strictlyIncreasing (assign noConversion '?' scenario2 6 8 'B').2.m_map :=
  ⟨by decide, (assign_keeps_key_order noConversion 'x' '?' scenario2 6 8 'B' (by decide)).2⟩

end MoreInstances

section NarrowingInstances

/-- C1 at its failing input, `interval_map<int, int> M(300); M.assign(1, 5, 7)`: the call
succeeds (reading no value past the last entry); line 79 stores the value 300 found at
key 5 in a `char`, which holds 44, so the pair `(5, 44)` is inserted.  Key 5 is outside
`[1, 5)`, the lookup there was 300 before the call and is 44 after it. -/
theorem assign_pointwise_int_fails :
    strictlyIncreasing intStore300.m_map ∧ (1 : Int) < 5 ∧
    intThroughChar.narrow 300 = 44 ∧
    readsPastEnd 0 intStore300 1 5 7 = false ∧
    assign intThroughChar 0 intStore300 1 5 7 =
      (Outcome.ok, { m_valBegin := 300, m_map := [(1, 7), (5, 44)] }) ∧
    ¬ ((1 : Int) ≤ 5 ∧ (5 : Int) < 5) ∧
    lookup intStore300 5 = 300 ∧
    lookup (assign intThroughChar 0 intStore300 1 5 7).2 5 = 44 := by
  decide

/-- C9 at its failing input, `interval_map<int, int> M(263); M.assign(1, 5, 7)`: the call
succeeds (reading no value past the last entry); line 79 stores the value 263 found at
key 5 in a `char`, which holds 7 and compares equal to `val`, so no pair is inserted at
key 5.  The lookup at `keyEnd = 5` was 263 before the call and is 7 after it. -/
theorem assign_right_edge_int_fails :
    intThroughChar.narrow 263 = 7 ∧
    readsPastEnd 0 intStore263 1 5 7 = false ∧
    assign intThroughChar 0 intStore263 1 5 7 =
      (Outcome.ok, { m_valBegin := 263, m_map := [(1, 7)] }) ∧
    lookup intStore263 5 = 263 ∧
    lookup (assign intThroughChar 0 intStore263 1 5 7).2 5 = 7 := by
  decide

/-- C14 at its failing input, `interval_map<int, int> M(300); M.assign(1, 5, 7)`: the
value active at `keyEnd = 5` before the call is 300 and differs from `val = 7`, the call
succeeds, and the boundary at key 5 of the resulting store carries 44: the entry
`(5, 300)` is not stored. -/
theorem assign_tail_boundary_int_fails :
    strictlyIncreasing intStore300.m_map ∧ (1 : Int) < 5 ∧
    lookup intStore300 5 = 300 ∧ lookup intStore300 5 ≠ 7 ∧
    (assign intThroughChar 0 intStore300 1 5 7).1 = Outcome.ok ∧
    ((5 : Int), (44 : Int)) ∈ (assign intThroughChar 0 intStore300 1 5 7).2.m_map ∧
    ((5 : Int), (300 : Int)) ∉ (assign intThroughChar 0 intStore300 1 5 7).2.m_map := by
  decide

end NarrowingInstances

end IntervalMap
